import Mathlib

/-!
# Verification of the ty-ras/metadata-openapi schema/document assembly engine

This file contains a shallow embedding, in Lean 4, of the core of the
`@ty-ras/metadata-openapi` TypeScript package:

* `src/jsonschema.ts` — the JSON-Schema-draft-7 → OpenAPI-3.0 schema dialect
  converter (`convertToOpenAPISchemaObject` / `convertBooleanSchemasToObjects`,
  `transformConstToEnum`, `handleSchemaOrArray`, `handleSchemaRecord`,
  `stripUndefineds`);
* `src/provider.ts` — the document assembler
  (`getResponseBody`, `getRequestBody`, `getOperationObject`,
  `afterDefiningURLEndpoints`, `createFinalMetadata`, helpers);
* `src/utils.ts` — the unauthenticated-subset extractor
  (`removeAuthenticatedOperations`, `removeOperationsMatchingFilter`,
  `preserveOperations`, `removeSecuritySchemes`).

JavaScript objects are modelled as association lists of string keys paired
with JSON-ish values (`JsVal`), where the value `undef` models a key that is
present with value `undefined`.  An absent key and lookups on it are modelled
by `getField` returning `undef`, matching JavaScript property access.

Reference identity and in-place mutation (needed by the no-mutation /
identity-return claims) are modelled by a second, instrumented embedding of
the converter (`AVal`, `convertA`), in which arrays and objects carry an
explicit address, object construction allocates a fresh address from a
monotone counter, and every in-place mutation performed by the source
(the `delete` loop of `stripUndefineds`, the `newRecord[key] = …` assignments
of `handleSchemaRecord`) logs the address of the object it mutates.
-/

/-! ## JavaScript value model -/

/-- A JSON-ish JavaScript value.  `undef` models the JavaScript value
`undefined`; an object field mapped to `undef` models a key that is present
with value `undefined` (JavaScript distinguishes that from an absent key via
the `in` operator, which the source uses for `"const" in schema`). -/
inductive JsVal : Type where
  | undef : JsVal
  | jbool : Bool → JsVal
  | jstr : String → JsVal
  | jnum : Int → JsVal
  | jarr : List JsVal → JsVal
  | jobj : List (String × JsVal) → JsVal
deriving Inhabited

/-- `value === undefined`. -/
def JsVal.isUndef : JsVal → Bool
  | .undef => true
  | _ => false

/-- `Array.isArray(value)`. -/
def JsVal.isArr : JsVal → Bool
  | .jarr _ => true
  | _ => false

/-- JavaScript property read `o[key]`: the value of the first binding of
`key`, or `undefined` when the key is absent. -/
def getField : List (String × JsVal) → String → JsVal
  | [], _ => .undef
  | (k, v) :: rest, key => if k = key then v else getField rest key

/-- JavaScript `key in o`. -/
def hasKey (fs : List (String × JsVal)) (key : String) : Bool :=
  fs.any (fun kv => kv.1 == key)

/-- Rest-pattern destructuring `{key: _, ...rest} = o`: drop the key. -/
def removeKey (fs : List (String × JsVal)) (key : String) :
    List (String × JsVal) :=
  fs.filter (fun kv => kv.1 != key)

/-- Assigning `key: v` inside an object literal that already holds `fs`:
if the key is already bound its binding is overwritten in place,
otherwise the binding is appended.  (JavaScript object literals keep the
first position of a key and the last assigned value.) -/
def jsSet (fs : List (String × JsVal)) (key : String) (v : JsVal) :
    List (String × JsVal) :=
  if hasKey fs key then
    fs.map (fun kv => if kv.1 = key then (key, v) else kv)
  else fs ++ [(key, v)]

/-- The object literal `{...base, k₁: v₁, …, kₙ: vₙ}`: each assignment is
applied in order on top of the spread base. -/
def jsLiteral (base : List (String × JsVal))
    (assignments : List (String × JsVal)) : List (String × JsVal) :=
  assignments.foldl (fun acc kv => jsSet acc kv.1 kv.2) base

/-- `stripUndefineds` of `src/jsonschema.ts`: the source iterates the keys of
its (freshly constructed) argument and `delete`s every key whose value is
`undefined`; the net effect on the field list is this filter. -/
def stripUndefineds (fs : List (String × JsVal)) : List (String × JsVal) :=
  fs.filter (fun kv => !kv.2.isUndef)

/-- The field list of an object value; a non-object spreads as `{}` (the
converter only ever reaches the spread with objects, booleans being handled
beforehand). -/
def fieldsOf : JsVal → List (String × JsVal)
  | .jobj fs => fs
  | _ => []

/-! ## The schema dialect converter (`src/jsonschema.ts`) -/

/-- `transformConstToEnum` of `src/jsonschema.ts`:

```ts
let copied = false;
if ("const" in schema) {
  const { const: constValue, ...schemaObj } = schema;
  if (constValue !== undefined) {
    copied = true;
    schema = { enum: [constValue], ...schemaObj };
  }
}
return copied ? schema : { ...schema };
```

The shallow copy `{...schema}` has the same fields as `schema`, so in this
pure value model the not-copied branches return the field list unchanged. -/
def transformConstToEnum (fs : List (String × JsVal)) :
    List (String × JsVal) :=
  if hasKey fs "const" then
    let constValue := getField fs "const"
    if constValue.isUndef then fs
    else jsLiteral [("enum", .jarr [constValue])] (removeKey fs "const")
  else fs

/-- Which helper a special key of the converter's object literal is routed
through: `handleSchemaOrArray` or `handleSchemaRecord`. -/
inductive HandlerKind : Type where
  | orArray : HandlerKind
  | record : HandlerKind

/-- The explicit assignments of the object literal in
`convertBooleanSchemasToObjects` (`src/jsonschema.ts` lines 18–35), in source
order: target key, source key read from the input schema, and which helper is
applied.  Note the source key of `additionalProperties`: it is read from
`additionalItems`, exactly as in the source. -/
def converterSpecials : List (String × String × HandlerKind) :=
  [("items", "items", .orArray),
   ("additionalItems", "additionalItems", .orArray),
   ("properties", "properties", .record),
   ("patternProperties", "patternProperties", .record),
   ("additionalProperties", "additionalItems", .orArray),
   ("dependencies", "dependencies", .record),
   ("propertyNames", "propertyNames", .orArray),
   ("if", "if", .orArray),
   ("then", "then", .orArray),
   ("else", "else", .orArray),
   ("allOf", "allOf", .orArray),
   ("anyOf", "anyOf", .orArray),
   ("oneOf", "oneOf", .orArray),
   ("not", "not", .orArray),
   ("definitions", "definitions", .record)]

lemma getField_sizeOf (fs : List (String × JsVal)) (key : String) :
    getField fs key = .undef ∨ sizeOf (getField fs key) < sizeOf fs := by
  induction fs with
  | nil => exact Or.inl rfl
  | cons kv rest ih =>
    obtain ⟨k, v⟩ := kv
    by_cases h : k = key
    · right
      simp only [getField, h, if_true]
      simp only [List.cons.sizeOf_spec, Prod.mk.sizeOf_spec]
      omega
    · rcases ih with h' | h'
      · left
        simpa [getField, h] using h'
      · right
        simp only [getField, h, if_false]
        have hr : sizeOf rest < sizeOf ((k, v) :: rest) := by
          simp only [List.cons.sizeOf_spec, Prod.mk.sizeOf_spec]
          omega
        omega

lemma sizeOf_pos_fields (fs : List (String × JsVal)) : 1 ≤ sizeOf fs := by
  cases fs
  · simp
  · simp only [List.cons.sizeOf_spec]
    omega

mutual

/-- `convertBooleanSchemasToObjects` of `src/jsonschema.ts`:

```ts
typeof schema === "boolean"
  ? schema ? {} : { not: {} }
  : stripUndefineds({
      ...transformConstToEnum(schema),
      items: handleSchemaOrArray(schema.items),
      …,
      additionalProperties: handleSchemaOrArray(schema.additionalItems),
      …,
      definitions: handleSchemaRecord(schema.definitions),
    });
```

The fifteen explicit assignments are driven by the `converterSpecials` table
above, in source order.  A JSON schema is a boolean or an object; on the
remaining constructors (which the source only ever reaches as undefined
behaviour, e.g. at top level) the spread contributes no schema keys and every
special assignment reads `undefined` and is stripped, so the result is `{}`;
those cases are written with that computed value so that the termination
measure only has to handle the object case. -/
def convertBooleanSchemasToObjects : JsVal → JsVal
  | .jbool true => .jobj []
  | .jbool false => .jobj [("not", .jobj [])]
  | .undef => .jobj []
  | .jstr _ => .jobj []
  | .jnum _ => .jobj []
  | .jarr _ => .jobj []
  | .jobj fs =>
    .jobj (stripUndefineds
      (jsLiteral (transformConstToEnum fs)
        (applySpecials converterSpecials fs)))
termination_by v => (sizeOf v, 0)
decreasing_by
  simp only [Prod.lex_def]
  left
  simp only [JsVal.jobj.sizeOf_spec]
  omega

/-- Evaluation of the special assignments of the converter's object literal,
in table order: each produces `(targetKey, handler (schema[sourceKey]))`. -/
def applySpecials (specials : List (String × String × HandlerKind))
    (fs : List (String × JsVal)) : List (String × JsVal) :=
  match specials with
  | [] => []
  | (target, src, kind) :: rest =>
    (target,
      match kind with
      | .orArray => handleSchemaOrArray (getField fs src)
      | .record => handleSchemaRecord (getField fs src)) ::
    applySpecials rest fs
termination_by (sizeOf fs, 2 + specials.length)
decreasing_by
  all_goals simp only [Prod.lex_def]
  all_goals first
    | exact Or.inr ⟨trivial, by simp only [List.length_cons]; omega⟩
    | (rcases getField_sizeOf fs src with h | h
       · have h1 := sizeOf_pos_fields fs
         rcases Nat.eq_or_lt_of_le h1 with h2 | h2
         · exact Or.inr ⟨by rw [h]; simp only [JsVal.undef.sizeOf_spec]; omega,
             by simp only [List.length_cons]; omega⟩
         · exact Or.inl (by rw [h]; simp only [JsVal.undef.sizeOf_spec]; omega)
       · exact Or.inl h)

/-- `handleSchemaOrArray` of `src/jsonschema.ts`:

```ts
value === undefined
  ? undefined
  : (Array.isArray(value)
      ? value.map(convertBooleanSchemasToObjects)
      : convertBooleanSchemasToObjects(value))
```

`value.map(…)` constructs a new array of the converted elements. -/
def handleSchemaOrArray : JsVal → JsVal
  | .undef => .undef
  | .jarr xs =>
    .jarr (xs.attach.map (fun x => convertBooleanSchemasToObjects x.1))
  | v => convertBooleanSchemasToObjects v
termination_by v => (sizeOf v, 1)
decreasing_by
  all_goals simp only [Prod.lex_def]
  all_goals first
    | exact Or.inl (by
        have hx := List.sizeOf_lt_of_mem x.2
        simp only [JsVal.jarr.sizeOf_spec]
        omega)
    | exact Or.inr ⟨trivial, by omega⟩

/-- `handleSchemaRecord` of `src/jsonschema.ts`:

```ts
record === undefined
  ? record
  : Object.entries(record).reduce((newRecord, [key, val]) => {
      newRecord[key] =
        val !== undefined && !Array.isArray(val)
          ? convertBooleanSchemasToObjects(val)
          : val;
      return newRecord;
    }, {});
```

The reduce builds a new object with the same keys in the same order,
converting every value that is neither `undefined` nor an array. -/
def handleSchemaRecord : JsVal → JsVal
  | .undef => .undef
  | .jobj fs =>
    .jobj (fs.attach.map (fun kv =>
      (kv.1.1,
        if !kv.1.2.isUndef && !kv.1.2.isArr then
          convertBooleanSchemasToObjects kv.1.2
        else kv.1.2)))
  | _ => .jobj []
termination_by v => (sizeOf v, 1)
decreasing_by
  simp only [Prod.lex_def]
  left
  have h1 := List.sizeOf_lt_of_mem kv.2
  have h2 : sizeOf kv.1.2 < sizeOf kv.1 := by
    obtain ⟨⟨a, b⟩, hm⟩ := kv
    simp only [Prod.mk.sizeOf_spec]
    omega
  simp only [JsVal.jobj.sizeOf_spec]
  omega

end

/-- `convertToOpenAPISchemaObject` of `src/jsonschema.ts` (the cast to the
OpenAPI schema type is a no-op at runtime). -/
def convertToOpenAPISchemaObject (schema : JsVal) : JsVal :=
  convertBooleanSchemasToObjects schema

/-! ### Evaluation lemmas for the converter -/

lemma attach_map_fst {α β : Type _} (l : List α) (F : α → β) :
    l.attach.map (fun x => F x.1) = l.map F := by
  rw [show (fun (x : {x // x ∈ l}) => F x.1) = F ∘ Subtype.val from rfl,
    ← List.map_map, List.attach_map_subtype_val]

lemma handleSchemaOrArray_arr (xs : List JsVal) :
    handleSchemaOrArray (.jarr xs) =
      .jarr (xs.map convertBooleanSchemasToObjects) := by
  rw [handleSchemaOrArray.eq_def]
  exact congrArg JsVal.jarr (attach_map_fst xs convertBooleanSchemasToObjects)

lemma handleSchemaRecord_obj (fs : List (String × JsVal)) :
    handleSchemaRecord (.jobj fs) =
      .jobj (fs.map (fun kv =>
        (kv.1,
          if !kv.2.isUndef && !kv.2.isArr then
            convertBooleanSchemasToObjects kv.2
          else kv.2))) := by
  rw [handleSchemaRecord.eq_def]
  exact congrArg JsVal.jobj (attach_map_fst fs (fun kv =>
    (kv.1,
      if !kv.2.isUndef && !kv.2.isArr then
        convertBooleanSchemasToObjects kv.2
      else kv.2)))

example : convertToOpenAPISchemaObject (.jbool true) = .jobj [] := by
  simp [convertToOpenAPISchemaObject, convertBooleanSchemasToObjects]

example : convertToOpenAPISchemaObject (.jbool false) =
    .jobj [("not", .jobj [])] := by
  simp [convertToOpenAPISchemaObject, convertBooleanSchemasToObjects]

/-! ### Field-lookup lemmas for literals, strips and key removal -/

/-- Every binding of `key` in `fs` carries the value `v` (vacuously true when
the key is absent). -/
def allKey (fs : List (String × JsVal)) (key : String) (v : JsVal) : Prop :=
  ∀ kv ∈ fs, kv.1 = key → kv.2 = v

lemma isUndef_iff (v : JsVal) : v.isUndef = true ↔ v = .undef := by
  cases v <;> simp [JsVal.isUndef]

lemma hasKey_iff (fs : List (String × JsVal)) (key : String) :
    hasKey fs key = true ↔ ∃ kv ∈ fs, kv.1 = key := by
  simp [hasKey]

lemma hasKey_eq_false_iff (fs : List (String × JsVal)) (key : String) :
    hasKey fs key = false ↔ ∀ kv ∈ fs, kv.1 ≠ key := by
  rw [← Bool.not_eq_true, hasKey_iff]
  constructor
  · intro h kv hm hk
    exact h ⟨kv, hm, hk⟩
  · intro h hc
    obtain ⟨kv, hm, hk⟩ := hc
    exact h kv hm hk

lemma hasKey_append (fs gs : List (String × JsVal)) (key : String) :
    hasKey (fs ++ gs) key = (hasKey fs key || hasKey gs key) := by
  simp [hasKey]

lemma getField_eq_undef_of_not_hasKey (fs : List (String × JsVal))
    (key : String) (h : hasKey fs key = false) : getField fs key = .undef := by
  induction fs with
  | nil => rfl
  | cons kv rest ih =>
    rw [hasKey_eq_false_iff] at h
    have h1 : kv.1 ≠ key := h kv (List.mem_cons_self kv rest)
    obtain ⟨k, v⟩ := kv
    simp only [getField, h1, if_false]
    exact ih (by
      rw [hasKey_eq_false_iff]
      intro kv' hm
      exact h kv' (List.mem_cons_of_mem _ hm))

lemma hasKey_map_preserve (f : String × JsVal → String × JsVal)
    (hf : ∀ kv, (f kv).1 = kv.1) (fs : List (String × JsVal)) (key : String) :
    hasKey (fs.map f) key = hasKey fs key := by
  simp only [hasKey, List.any_map]
  congr 1
  funext kv
  simp [Function.comp, hf kv]

lemma setfn_fst (key' : String) (v : JsVal) (kv : String × JsVal) :
    ((if kv.1 = key' then (key', v) else kv)).1 = kv.1 := by
  by_cases h : kv.1 = key' <;> simp [h]

lemma hasKey_jsSet_self (fs : List (String × JsVal)) (key : String)
    (v : JsVal) : hasKey (jsSet fs key v) key = true := by
  unfold jsSet
  split
  · rename_i h
    rw [hasKey_map_preserve _ (setfn_fst key v)]
    exact h
  · rw [hasKey_append]
    simp [hasKey]

lemma hasKey_jsSet_ne (fs : List (String × JsVal)) (key key' : String)
    (v : JsVal) (hne : key' ≠ key) :
    hasKey (jsSet fs key' v) key = hasKey fs key := by
  unfold jsSet
  split
  · exact hasKey_map_preserve _ (setfn_fst key' v) fs key
  · rw [hasKey_append]
    simp [hasKey, hne]

lemma hasKey_jsSet_mono (fs : List (String × JsVal)) (key key' : String)
    (v : JsVal) (h : hasKey fs key = true) :
    hasKey (jsSet fs key' v) key = true := by
  unfold jsSet
  split
  · rw [hasKey_map_preserve _ (setfn_fst key' v)]
    exact h
  · rw [hasKey_append, h]
    rfl

lemma getField_append_ne (fs : List (String × JsVal)) (key key' : String)
    (v : JsVal) (hne : key' ≠ key) :
    getField (fs ++ [(key', v)]) key = getField fs key := by
  induction fs with
  | nil => simp [getField, hne]
  | cons a rest ih =>
    obtain ⟨k, w⟩ := a
    by_cases h : k = key
    · simp [getField, h]
    · simp [getField, h, ih]

lemma getField_map_set_ne (fs : List (String × JsVal)) (key key' : String)
    (v : JsVal) (hne : key' ≠ key) :
    getField (fs.map (fun kv => if kv.1 = key' then (key', v) else kv)) key
      = getField fs key := by
  induction fs with
  | nil => rfl
  | cons a rest ih =>
    obtain ⟨k, w⟩ := a
    simp only [List.map_cons]
    by_cases h : k = key'
    · rw [show (if ((k, w) : String × JsVal).1 = key' then (key', v)
          else (k, w)) = (key', v) by simp [h]]
      have hk : k ≠ key := by rw [h]; exact hne
      simp only [getField, hne, if_false, hk]
      exact ih
    · rw [show (if ((k, w) : String × JsVal).1 = key' then (key', v)
          else (k, w)) = (k, w) by simp [h]]
      by_cases h2 : k = key
      · simp [getField, h2]
      · simp only [getField, h2, if_false]
        exact ih

lemma getField_map_set_self (fs : List (String × JsVal)) (key : String)
    (v : JsVal) (hk : hasKey fs key = true) :
    getField (fs.map (fun kv => if kv.1 = key then (key, v) else kv)) key
      = v := by
  induction fs with
  | nil => cases hk
  | cons a rest ih =>
    obtain ⟨k, w⟩ := a
    simp only [List.map_cons]
    by_cases h : k = key
    · rw [show (if ((k, w) : String × JsVal).1 = key then (key, v)
          else (k, w)) = (key, v) by simp [h]]
      simp [getField]
    · rw [show (if ((k, w) : String × JsVal).1 = key then (key, v)
          else (k, w)) = (k, w) by simp [h]]
      simp only [getField, h, if_false]
      apply ih
      obtain ⟨kv, hm, hkk⟩ := (hasKey_iff _ key).mp hk
      rcases List.mem_cons.mp hm with rfl | hm'
      · exact absurd hkk h
      · exact (hasKey_iff rest key).mpr ⟨kv, hm', hkk⟩

lemma getField_append_self (fs : List (String × JsVal)) (key : String)
    (v : JsVal) (h : hasKey fs key = false) :
    getField (fs ++ [(key, v)]) key = v := by
  induction fs with
  | nil => simp [getField]
  | cons a rest ih =>
    have hk : a.1 ≠ key :=
      (hasKey_eq_false_iff _ key).mp h a (List.mem_cons_self a rest)
    obtain ⟨k, w⟩ := a
    simp only at hk
    simp only [List.cons_append, getField, hk, if_false]
    apply ih
    rw [hasKey_eq_false_iff] at h ⊢
    intro kv hm
    exact h kv (List.mem_cons_of_mem _ hm)

lemma getField_jsSet_ne (fs : List (String × JsVal)) (key key' : String)
    (v : JsVal) (hne : key' ≠ key) :
    getField (jsSet fs key' v) key = getField fs key := by
  unfold jsSet
  split
  · exact getField_map_set_ne fs key key' v hne
  · exact getField_append_ne fs key key' v hne

lemma getField_jsSet_self (fs : List (String × JsVal)) (key : String)
    (v : JsVal) : getField (jsSet fs key v) key = v := by
  unfold jsSet
  split
  · rename_i h
    exact getField_map_set_self fs key v h
  · rename_i h
    exact getField_append_self fs key v (by simpa using h)

lemma allKey_jsSet_self (fs : List (String × JsVal)) (key : String)
    (v : JsVal) : allKey (jsSet fs key v) key v := by
  intro kv hm hk
  unfold jsSet at hm
  split at hm
  · obtain ⟨kv0, hm0, heq⟩ := List.mem_map.mp hm
    by_cases h : kv0.1 = key
    · rw [if_pos h] at heq
      rw [← heq]
    · rw [if_neg h] at heq
      rw [← heq] at hk
      exact absurd hk h
  · rcases List.mem_append.mp hm with h | h
    · rename_i hnk
      have hnk' : hasKey fs key = false := by simpa using hnk
      rw [hasKey_eq_false_iff] at hnk'
      exact absurd hk (hnk' kv h)
    · have : kv = (key, v) := by simpa using h
      rw [this]

lemma allKey_jsSet_ne (fs : List (String × JsVal)) (key key' : String)
    (v w : JsVal) (hne : key' ≠ key) (h : allKey fs key v) :
    allKey (jsSet fs key' w) key v := by
  intro kv hm hk
  unfold jsSet at hm
  split at hm
  · obtain ⟨kv0, hm0, heq⟩ := List.mem_map.mp hm
    by_cases h0 : kv0.1 = key'
    · rw [if_pos h0] at heq
      rw [← heq] at hk
      exact absurd hk hne
    · rw [if_neg h0] at heq
      rw [← heq]
      exact h kv0 hm0 (by rw [heq]; exact hk)
  · rcases List.mem_append.mp hm with hmm | hmm
    · exact h kv hmm hk
    · have : kv = (key', w) := by simpa using hmm
      rw [this] at hk
      exact absurd hk hne

lemma jsLiteral_nil (base : List (String × JsVal)) :
    jsLiteral base [] = base := rfl

lemma jsLiteral_cons (base : List (String × JsVal)) (a : String × JsVal)
    (rest : List (String × JsVal)) :
    jsLiteral base (a :: rest) = jsLiteral (jsSet base a.1 a.2) rest := rfl

lemma getField_jsLiteral_not_assigned (assigns : List (String × JsVal))
    (key : String) :
    ∀ base, (∀ kv ∈ assigns, kv.1 ≠ key) →
      getField (jsLiteral base assigns) key = getField base key := by
  induction assigns with
  | nil => intro base _; rfl
  | cons a rest ih =>
    intro base h
    rw [jsLiteral_cons,
      ih _ (fun kv hm => h kv (List.mem_cons_of_mem _ hm))]
    exact getField_jsSet_ne base key a.1 a.2 (h a (List.mem_cons_self a rest))

lemma hasKey_jsLiteral_not_assigned (assigns : List (String × JsVal))
    (key : String) :
    ∀ base, (∀ kv ∈ assigns, kv.1 ≠ key) →
      hasKey (jsLiteral base assigns) key = hasKey base key := by
  induction assigns with
  | nil => intro base _; rfl
  | cons a rest ih =>
    intro base h
    rw [jsLiteral_cons,
      ih _ (fun kv hm => h kv (List.mem_cons_of_mem _ hm))]
    exact hasKey_jsSet_ne base key a.1 a.2 (h a (List.mem_cons_self a rest))

lemma allKey_jsLiteral_not_assigned (assigns : List (String × JsVal))
    (key : String) (v : JsVal) :
    ∀ base, (∀ kv ∈ assigns, kv.1 ≠ key) → allKey base key v →
      allKey (jsLiteral base assigns) key v := by
  induction assigns with
  | nil => intro base _ hb; exact hb
  | cons a rest ih =>
    intro base h hb
    rw [jsLiteral_cons]
    exact ih _ (fun kv hm => h kv (List.mem_cons_of_mem _ hm))
      (allKey_jsSet_ne base key a.1 v a.2 (h a (List.mem_cons_self a rest)) hb)

lemma hasKey_jsLiteral_mono (assigns : List (String × JsVal)) (key : String) :
    ∀ base, hasKey base key = true →
      hasKey (jsLiteral base assigns) key = true := by
  induction assigns with
  | nil => intro base h; exact h
  | cons a rest ih =>
    intro base h
    rw [jsLiteral_cons]
    exact ih _ (hasKey_jsSet_mono base key a.1 a.2 h)

lemma jsLiteral_allKey_of_mem (assigns : List (String × JsVal))
    (key : String) (v : JsVal) :
    ∀ base, (key, v) ∈ assigns → (assigns.map Prod.fst).Nodup →
      hasKey (jsLiteral base assigns) key = true ∧
        allKey (jsLiteral base assigns) key v := by
  induction assigns with
  | nil => intro base h _; cases h
  | cons a rest ih =>
    intro base hmem hnd
    rw [jsLiteral_cons]
    rw [List.map_cons, List.nodup_cons] at hnd
    rcases List.mem_cons.mp hmem with heq | hmem'
    · have hrest : ∀ kv ∈ rest, kv.1 ≠ key := by
        intro kv hm hk
        apply hnd.1
        have ha1 : a.1 = key := by rw [← heq]
        rw [ha1, ← hk]
        exact List.mem_map_of_mem Prod.fst hm
      constructor
      · rw [hasKey_jsLiteral_not_assigned rest key _ hrest, ← heq]
        exact hasKey_jsSet_self base key v
      · apply allKey_jsLiteral_not_assigned rest key v _ hrest
        rw [← heq]
        exact allKey_jsSet_self base key v
    · exact ih (jsSet base a.1 a.2) hmem' hnd.2

lemma isUndef_false_iff (v : JsVal) : v.isUndef = false ↔ v ≠ .undef := by
  cases v <;> simp [JsVal.isUndef]

lemma mem_stripUndefineds (fs : List (String × JsVal)) (kv : String × JsVal) :
    kv ∈ stripUndefineds fs ↔ kv ∈ fs ∧ kv.2 ≠ .undef := by
  simp [stripUndefineds, List.mem_filter, isUndef_false_iff]

lemma hasKey_strip_of_allKey_undef (fs : List (String × JsVal)) (key : String)
    (h : allKey fs key .undef) :
    hasKey (stripUndefineds fs) key = false := by
  rw [hasKey_eq_false_iff]
  intro kv hm hk
  obtain ⟨hm1, hm2⟩ := (mem_stripUndefineds fs kv).mp hm
  exact hm2 (h kv hm1 hk)

lemma hasKey_strip_false (fs : List (String × JsVal)) (key : String)
    (h : hasKey fs key = false) :
    hasKey (stripUndefineds fs) key = false := by
  rw [hasKey_eq_false_iff] at h ⊢
  intro kv hm
  exact h kv ((mem_stripUndefineds fs kv).mp hm).1

lemma getField_strip_allKey_val (fs : List (String × JsVal)) (key : String)
    (v : JsVal) (hu : v.isUndef = false) :
    hasKey fs key = true → allKey fs key v →
      getField (stripUndefineds fs) key = v := by
  induction fs with
  | nil => intro hk _; cases hk
  | cons a rest ih =>
    intro hk h
    by_cases ha : a.1 = key
    · have hv : a.2 = v := h a (List.mem_cons_self a rest) ha
      obtain ⟨k, w⟩ := a
      simp only at hv ha
      rw [stripUndefineds]
      rw [List.filter_cons]
      simp only [hv, hu, Bool.not_false, if_true]
      simp [getField, ha]
    · obtain ⟨k, w⟩ := a
      simp only at ha
      have hk' : hasKey rest key = true := by
        obtain ⟨kv, hm, hkk⟩ := (hasKey_iff _ key).mp hk
        rcases List.mem_cons.mp hm with rfl | hm'
        · exact absurd hkk ha
        · exact (hasKey_iff rest key).mpr ⟨kv, hm', hkk⟩
      have h' : allKey rest key v :=
        fun kv hm => h kv (List.mem_cons_of_mem _ hm)
      rw [stripUndefineds, List.filter_cons]
      by_cases hw : (!(w : JsVal).isUndef) = true
      · simp only [hw, if_true]
        simpa [getField, ha] using ih hk' h'
      · simp only [hw]
        simpa using ih hk' h'

lemma hasKey_strip_allKey_val (fs : List (String × JsVal)) (key : String)
    (v : JsVal) (hu : v.isUndef = false)
    (hk : hasKey fs key = true) (h : allKey fs key v) :
    hasKey (stripUndefineds fs) key = true := by
  obtain ⟨kv, hm, hkk⟩ := (hasKey_iff fs key).mp hk
  refine (hasKey_iff _ key).mpr ⟨kv, ?_, hkk⟩
  refine (mem_stripUndefineds fs kv).mpr ⟨hm, ?_⟩
  rw [h kv hm hkk]
  intro hcon
  rw [hcon] at hu
  simp [JsVal.isUndef] at hu

lemma mem_removeKey (fs : List (String × JsVal)) (key : String)
    (kv : String × JsVal) :
    kv ∈ removeKey fs key ↔ kv ∈ fs ∧ kv.1 ≠ key := by
  simp [removeKey, List.mem_filter]

lemma hasKey_removeKey_ne (fs : List (String × JsVal)) (key rem : String)
    (hne : key ≠ rem) :
    hasKey (removeKey fs rem) key = hasKey fs key := by
  cases h : hasKey fs key with
  | false =>
    rw [hasKey_eq_false_iff] at h ⊢
    intro kv hm
    exact h kv ((mem_removeKey fs rem kv).mp hm).1
  | true =>
    rw [hasKey_iff] at h ⊢
    obtain ⟨kv, hm, hkk⟩ := h
    exact ⟨kv, (mem_removeKey fs rem kv).mpr ⟨hm, by rw [hkk]; exact hne⟩, hkk⟩

lemma getField_removeKey_ne (fs : List (String × JsVal)) (key rem : String)
    (hne : key ≠ rem) :
    getField (removeKey fs rem) key = getField fs key := by
  induction fs with
  | nil => rfl
  | cons a rest ih =>
    obtain ⟨k, w⟩ := a
    by_cases ha : k = rem
    · have hk : k ≠ key := fun hh => hne (by rw [← hh]; exact ha)
      rw [show removeKey ((k, w) :: rest) rem = removeKey rest rem by
        simp [removeKey, List.filter_cons, ha]]
      rw [ih]
      simp [getField, hk]
    · rw [show removeKey ((k, w) :: rest) rem = (k, w) :: removeKey rest rem by
        simp [removeKey, List.filter_cons, ha]]
      by_cases h2 : k = key
      · simp [getField, h2]
      · simp only [getField, h2, if_false]
        exact ih

lemma nodup_keys_removeKey (fs : List (String × JsVal)) (rem : String)
    (h : (fs.map Prod.fst).Nodup) :
    ((removeKey fs rem).map Prod.fst).Nodup := by
  apply List.Nodup.sublist _ h
  exact List.Sublist.map Prod.fst (List.filter_sublist fs)

lemma allKey_getField_of_nodup (fs : List (String × JsVal)) (key : String)
    (h : (fs.map Prod.fst).Nodup) :
    allKey fs key (getField fs key) := by
  induction fs with
  | nil => intro kv hm; cases hm
  | cons a rest ih =>
    rw [List.map_cons, List.nodup_cons] at h
    intro kv hm hk
    rcases List.mem_cons.mp hm with rfl | hm'
    · simp [getField, hk]
    · by_cases ha : a.1 = key
      · exfalso
        apply h.1
        rw [← hk] at ha
        rw [ha]
        exact List.mem_map_of_mem Prod.fst hm'
      · obtain ⟨k, w⟩ := a
        simp only at ha
        simp only [getField, ha, if_false]
        exact ih h.2 kv hm' hk

/-! ### Structure of the converted object -/

lemma convert_obj (fs : List (String × JsVal)) :
    convertBooleanSchemasToObjects (.jobj fs) =
      .jobj (stripUndefineds (jsLiteral (transformConstToEnum fs)
        (applySpecials converterSpecials fs))) := by
  rw [convertBooleanSchemasToObjects.eq_def]

lemma applySpecials_nil (fs : List (String × JsVal)) :
    applySpecials [] fs = [] := by
  rw [applySpecials.eq_def]

lemma applySpecials_cons (t s : String) (k : HandlerKind)
    (rest : List (String × String × HandlerKind))
    (fs : List (String × JsVal)) :
    applySpecials ((t, s, k) :: rest) fs =
      (t, match k with
          | .orArray => handleSchemaOrArray (getField fs s)
          | .record => handleSchemaRecord (getField fs s)) ::
        applySpecials rest fs := by
  rw [applySpecials.eq_def]

lemma applySpecials_keys (specs : List (String × String × HandlerKind))
    (fs : List (String × JsVal)) :
    (applySpecials specs fs).map Prod.fst = specs.map (fun e => e.1) := by
  induction specs with
  | nil => rw [applySpecials_nil]; rfl
  | cons a rest ih =>
    obtain ⟨t, s, k⟩ := a
    rw [applySpecials_cons, List.map_cons, List.map_cons, ih]

lemma not_assigned_of_not_mem_keys (assigns : List (String × JsVal))
    (key : String) (h : key ∉ assigns.map Prod.fst) :
    ∀ kv ∈ assigns, kv.1 ≠ key := by
  intro kv hm hk
  exact h (hk ▸ List.mem_map_of_mem Prod.fst hm)

lemma getField_mem (fs : List (String × JsVal)) (key : String)
    (h : hasKey fs key = true) : (key, getField fs key) ∈ fs := by
  induction fs with
  | nil => cases h
  | cons a rest ih =>
    obtain ⟨k, w⟩ := a
    by_cases hk : k = key
    · subst hk
      simp [getField]
    · simp only [getField, hk, if_false]
      refine List.mem_cons_of_mem _ (ih ?_)
      obtain ⟨kv, hm, hkk⟩ := (hasKey_iff _ key).mp h
      rcases List.mem_cons.mp hm with rfl | hm'
      · exact absurd hkk hk
      · exact (hasKey_iff rest key).mpr ⟨kv, hm', hkk⟩

lemma convert_eq_jobj (v : JsVal) :
    ∃ gs, convertBooleanSchemasToObjects v = .jobj gs := by
  cases v with
  | undef => exact ⟨[], by simp [convertBooleanSchemasToObjects]⟩
  | jbool b =>
    cases b
    · exact ⟨[("not", .jobj [])], by simp [convertBooleanSchemasToObjects]⟩
    · exact ⟨[], by simp [convertBooleanSchemasToObjects]⟩
  | jstr s => exact ⟨[], by simp [convertBooleanSchemasToObjects]⟩
  | jnum n => exact ⟨[], by simp [convertBooleanSchemasToObjects]⟩
  | jarr xs => exact ⟨[], by simp [convertBooleanSchemasToObjects]⟩
  | jobj fs => exact ⟨_, convert_obj fs⟩

lemma handleSchemaOrArray_isUndef (v : JsVal) :
    (handleSchemaOrArray v).isUndef = v.isUndef := by
  cases v with
  | undef => simp [handleSchemaOrArray, JsVal.isUndef]
  | jarr xs =>
    rw [handleSchemaOrArray_arr]
    simp [JsVal.isUndef]
  | jbool b =>
    obtain ⟨gs, hg⟩ := convert_eq_jobj (.jbool b)
    simp [handleSchemaOrArray, hg, JsVal.isUndef]
  | jstr s =>
    obtain ⟨gs, hg⟩ := convert_eq_jobj (.jstr s)
    simp [handleSchemaOrArray, hg, JsVal.isUndef]
  | jnum n =>
    obtain ⟨gs, hg⟩ := convert_eq_jobj (.jnum n)
    simp [handleSchemaOrArray, hg, JsVal.isUndef]
  | jobj fs =>
    obtain ⟨gs, hg⟩ := convert_eq_jobj (.jobj fs)
    simp [handleSchemaOrArray, hg, JsVal.isUndef]

/-- The value bound to a special target key of the converted object: the
handler value itself, whether or not it is `undefined` (an `undefined`
special value is stripped, and the lookup of the then-absent key again
returns `undefined`). -/
lemma convert_getField_of_special (fs : List (String × JsVal)) (key : String)
    (v : JsVal) (hmem : (key, v) ∈ applySpecials converterSpecials fs) :
    getField (fieldsOf (convertBooleanSchemasToObjects (.jobj fs))) key
      = v := by
  rw [convert_obj]
  rw [show fieldsOf (JsVal.jobj (stripUndefineds (jsLiteral
    (transformConstToEnum fs) (applySpecials converterSpecials fs)))) =
    stripUndefineds (jsLiteral (transformConstToEnum fs)
      (applySpecials converterSpecials fs)) from rfl]
  have hnd : ((applySpecials converterSpecials fs).map Prod.fst).Nodup := by
    rw [applySpecials_keys]
    decide
  obtain ⟨hk, hak⟩ := jsLiteral_allKey_of_mem _ key v
    (transformConstToEnum fs) hmem hnd
  cases hu : v.isUndef with
  | true =>
    have hv : v = .undef := (isUndef_iff v).mp hu
    rw [hv]
    apply getField_eq_undef_of_not_hasKey
    apply hasKey_strip_of_allKey_undef
    rw [← hv]
    exact hak
  | false => exact getField_strip_allKey_val _ key v hu hk hak

/-- Presence of a special target key in the converted object: present exactly
when the handler value is not `undefined`. -/
lemma convert_hasKey_of_special (fs : List (String × JsVal)) (key : String)
    (v : JsVal) (hmem : (key, v) ∈ applySpecials converterSpecials fs) :
    hasKey (fieldsOf (convertBooleanSchemasToObjects (.jobj fs))) key
      = !v.isUndef := by
  rw [convert_obj]
  rw [show fieldsOf (JsVal.jobj (stripUndefineds (jsLiteral
    (transformConstToEnum fs) (applySpecials converterSpecials fs)))) =
    stripUndefineds (jsLiteral (transformConstToEnum fs)
      (applySpecials converterSpecials fs)) from rfl]
  have hnd : ((applySpecials converterSpecials fs).map Prod.fst).Nodup := by
    rw [applySpecials_keys]
    decide
  obtain ⟨hk, hak⟩ := jsLiteral_allKey_of_mem _ key v
    (transformConstToEnum fs) hmem hnd
  cases hu : v.isUndef with
  | true =>
    have hv : v = .undef := (isUndef_iff v).mp hu
    rw [hasKey_strip_of_allKey_undef _ key (hv ▸ hak)]
    rfl
  | false =>
    rw [hasKey_strip_allKey_val _ key v hu hk hak]
    rfl

lemma applySpecials_converter (fs : List (String × JsVal)) :
    applySpecials converterSpecials fs =
      [("items", handleSchemaOrArray (getField fs "items")),
       ("additionalItems", handleSchemaOrArray (getField fs "additionalItems")),
       ("properties", handleSchemaRecord (getField fs "properties")),
       ("patternProperties",
         handleSchemaRecord (getField fs "patternProperties")),
       ("additionalProperties",
         handleSchemaOrArray (getField fs "additionalItems")),
       ("dependencies", handleSchemaRecord (getField fs "dependencies")),
       ("propertyNames", handleSchemaOrArray (getField fs "propertyNames")),
       ("if", handleSchemaOrArray (getField fs "if")),
       ("then", handleSchemaOrArray (getField fs "then")),
       ("else", handleSchemaOrArray (getField fs "else")),
       ("allOf", handleSchemaOrArray (getField fs "allOf")),
       ("anyOf", handleSchemaOrArray (getField fs "anyOf")),
       ("oneOf", handleSchemaOrArray (getField fs "oneOf")),
       ("not", handleSchemaOrArray (getField fs "not")),
       ("definitions", handleSchemaRecord (getField fs "definitions"))] := by
  simp only [converterSpecials, applySpecials_cons, applySpecials_nil]

/-- C1: for every non-boolean input schema object `S = jobj fs`, the
schema-dialect converter derives the `additionalProperties` field of the
output by recursively converting the value of S's `additionalItems` field
(via `handleSchemaOrArray`), not the value of S's `additionalProperties`
field: the output's `additionalProperties` equals the converted
`additionalItems`, it is present exactly when `S` has a defined
`additionalItems`, and it is unchanged when S's own `additionalProperties`
binding is replaced by an arbitrary value `w`. -/
theorem convert_additionalProperties_from_additionalItems
    (fs : List (String × JsVal)) :
    getField (fieldsOf (convertBooleanSchemasToObjects (.jobj fs)))
        "additionalProperties"
      = handleSchemaOrArray (getField fs "additionalItems")
    ∧ hasKey (fieldsOf (convertBooleanSchemasToObjects (.jobj fs)))
        "additionalProperties"
      = !(getField fs "additionalItems").isUndef
    ∧ ∀ w, getField (fieldsOf (convertBooleanSchemasToObjects
          (.jobj (jsSet fs "additionalProperties" w))))
          "additionalProperties"
        = handleSchemaOrArray (getField fs "additionalItems") := by
  have hmem : ∀ gs : List (String × JsVal),
      ("additionalProperties",
        handleSchemaOrArray (getField gs "additionalItems"))
        ∈ applySpecials converterSpecials gs := by
    intro gs
    rw [applySpecials_converter]
    simp
  refine ⟨convert_getField_of_special fs _ _ (hmem fs), ?_, ?_⟩
  · rw [convert_hasKey_of_special fs _ _ (hmem fs)]
    rw [handleSchemaOrArray_isUndef]
  · intro w
    rw [convert_getField_of_special _ _ _ (hmem _)]
    rw [getField_jsSet_ne fs "additionalItems" "additionalProperties" w
      (by decide)]

/-! ### Keys not captured by the special assignments (`const`, `enum`) -/

lemma convert_getField_of_carry (fs : List (String × JsVal)) (key : String)
    (v : JsVal)
    (hns : key ∉ converterSpecials.map (fun e => e.1))
    (hk : hasKey (transformConstToEnum fs) key = true)
    (hak : allKey (transformConstToEnum fs) key v) :
    getField (fieldsOf (convertBooleanSchemasToObjects (.jobj fs))) key
      = if v.isUndef then .undef else v := by
  rw [convert_obj]
  have hasg : ∀ kv ∈ applySpecials converterSpecials fs, kv.1 ≠ key :=
    not_assigned_of_not_mem_keys _ _ (by rw [applySpecials_keys]; exact hns)
  have hak' := allKey_jsLiteral_not_assigned _ key v _ hasg hak
  have hk' : hasKey (jsLiteral (transformConstToEnum fs)
      (applySpecials converterSpecials fs)) key = true := by
    rw [hasKey_jsLiteral_not_assigned _ key _ hasg]
    exact hk
  cases hu : v.isUndef with
  | true =>
    have hv : v = .undef := (isUndef_iff v).mp hu
    rw [if_pos rfl]
    apply getField_eq_undef_of_not_hasKey
    apply hasKey_strip_of_allKey_undef
    rw [← hv]
    exact hak'
  | false =>
    rw [if_neg (by simp)]
    exact getField_strip_allKey_val _ key v hu hk' hak'

lemma convert_hasKey_of_carry (fs : List (String × JsVal)) (key : String)
    (v : JsVal)
    (hns : key ∉ converterSpecials.map (fun e => e.1))
    (hk : hasKey (transformConstToEnum fs) key = true)
    (hak : allKey (transformConstToEnum fs) key v) :
    hasKey (fieldsOf (convertBooleanSchemasToObjects (.jobj fs))) key
      = !v.isUndef := by
  rw [convert_obj]
  rw [show fieldsOf (JsVal.jobj (stripUndefineds (jsLiteral
    (transformConstToEnum fs) (applySpecials converterSpecials fs)))) =
    stripUndefineds (jsLiteral (transformConstToEnum fs)
      (applySpecials converterSpecials fs)) from rfl]
  have hasg : ∀ kv ∈ applySpecials converterSpecials fs, kv.1 ≠ key :=
    not_assigned_of_not_mem_keys _ _ (by rw [applySpecials_keys]; exact hns)
  have hak' := allKey_jsLiteral_not_assigned _ key v _ hasg hak
  have hk' : hasKey (jsLiteral (transformConstToEnum fs)
      (applySpecials converterSpecials fs)) key = true := by
    rw [hasKey_jsLiteral_not_assigned _ key _ hasg]
    exact hk
  cases hu : v.isUndef with
  | true =>
    have hv : v = .undef := (isUndef_iff v).mp hu
    rw [hasKey_strip_of_allKey_undef _ key (hv ▸ hak')]
    rfl
  | false =>
    rw [hasKey_strip_allKey_val _ key v hu hk' hak']
    rfl

lemma convert_hasKey_of_absent (fs : List (String × JsVal)) (key : String)
    (hns : key ∉ converterSpecials.map (fun e => e.1))
    (hk : hasKey (transformConstToEnum fs) key = false) :
    hasKey (fieldsOf (convertBooleanSchemasToObjects (.jobj fs))) key
      = false := by
  rw [convert_obj]
  rw [show fieldsOf (JsVal.jobj (stripUndefineds (jsLiteral
    (transformConstToEnum fs) (applySpecials converterSpecials fs)))) =
    stripUndefineds (jsLiteral (transformConstToEnum fs)
      (applySpecials converterSpecials fs)) from rfl]
  have hasg : ∀ kv ∈ applySpecials converterSpecials fs, kv.1 ≠ key :=
    not_assigned_of_not_mem_keys _ _ (by rw [applySpecials_keys]; exact hns)
  apply hasKey_strip_false
  rw [hasKey_jsLiteral_not_assigned _ key _ hasg]
  exact hk

lemma transformConstToEnum_of_undef (fs : List (String × JsVal))
    (hc : hasKey fs "const" = true)
    (hu : (getField fs "const").isUndef = true) :
    transformConstToEnum fs = fs := by
  simp [transformConstToEnum, hc, hu]

lemma transformConstToEnum_of_def (fs : List (String × JsVal))
    (hc : hasKey fs "const" = true)
    (hu : (getField fs "const").isUndef = false) :
    transformConstToEnum fs =
      jsLiteral [("enum", .jarr [getField fs "const"])]
        (removeKey fs "const") := by
  simp [transformConstToEnum, hc, hu]

lemma ite_isUndef_self (v : JsVal) :
    (if v.isUndef then JsVal.undef else v) = v := by
  cases v <;> simp [JsVal.isUndef]

/-- C8 (amended): for every schema object `S = jobj fs` with distinct keys
that has a `const` binding: the converted object never has a `const` key;
when the `const` value is defined and `S` has no `enum` binding of its own,
the output's `enum` is the single-element array of the `const` value (and is
present); when the `const` value is `undefined` and `S` has no `enum`
binding, the output has no `enum` key; and when `S` has its own `enum`
binding, the output's `enum` equals S's own `enum` value — the JavaScript
spread `{enum: [constValue], ...schemaObj}` lets the original `enum` win,
so the claim's unconditional `enum = [v]` only holds for schemas without
their own `enum` key. -/
theorem transformConstToEnum_elimination (fs : List (String × JsVal))
    (hnd : (fs.map Prod.fst).Nodup) (hc : hasKey fs "const" = true) :
    hasKey (fieldsOf (convertBooleanSchemasToObjects (.jobj fs))) "const"
      = false
    ∧ ((getField fs "const").isUndef = false → hasKey fs "enum" = false →
        getField (fieldsOf (convertBooleanSchemasToObjects (.jobj fs))) "enum"
          = .jarr [getField fs "const"]
        ∧ hasKey (fieldsOf (convertBooleanSchemasToObjects (.jobj fs))) "enum"
          = true)
    ∧ ((getField fs "const").isUndef = true → hasKey fs "enum" = false →
        hasKey (fieldsOf (convertBooleanSchemasToObjects (.jobj fs))) "enum"
          = false)
    ∧ (hasKey fs "enum" = true →
        getField (fieldsOf (convertBooleanSchemasToObjects (.jobj fs))) "enum"
          = getField fs "enum") := by
  have hns_const : "const" ∉ converterSpecials.map (fun e => e.1) := by decide
  have hns_enum : "enum" ∉ converterSpecials.map (fun e => e.1) := by decide
  refine ⟨?_, ?_, ?_, ?_⟩
  · cases hu : (getField fs "const").isUndef with
    | true =>
      have htf := transformConstToEnum_of_undef fs hc hu
      have hak : allKey (transformConstToEnum fs) "const" .undef := by
        rw [htf]
        have h0 := allKey_getField_of_nodup fs "const" hnd
        rwa [(isUndef_iff _).mp hu] at h0
      have h := convert_hasKey_of_carry fs "const" .undef hns_const
        (by rw [htf]; exact hc) hak
      simpa using h
    | false =>
      apply convert_hasKey_of_absent fs "const" hns_const
      rw [transformConstToEnum_of_def fs hc hu]
      rw [hasKey_jsLiteral_not_assigned _ _ _
        (fun kv hm => ((mem_removeKey fs "const" kv).mp hm).2)]
      rw [hasKey_eq_false_iff]
      intro kv hm
      have he : kv.1 = "enum" := by
        have h1 : kv = ("enum", JsVal.jarr [getField fs "const"]) := by
          simpa using hm
        rw [h1]
      rw [he]
      decide
  · intro hu he
    have htf := transformConstToEnum_of_def fs hc hu
    have hne_rm : ∀ kv ∈ removeKey fs "const", kv.1 ≠ "enum" := by
      intro kv hm
      exact (hasKey_eq_false_iff fs "enum").mp he kv
        ((mem_removeKey fs "const" kv).mp hm).1
    have hbase_all : allKey [("enum", JsVal.jarr [getField fs "const"])]
        "enum" (JsVal.jarr [getField fs "const"]) := by
      intro kv hm hk
      have h1 : kv = ("enum", JsVal.jarr [getField fs "const"]) := by
        simpa using hm
      rw [h1]
    have hbase_has : hasKey [("enum", JsVal.jarr [getField fs "const"])]
        "enum" = true := by
      rw [hasKey_iff]
      exact ⟨("enum", JsVal.jarr [getField fs "const"]),
        List.mem_cons_self _ _, rfl⟩
    have hak : allKey (transformConstToEnum fs) "enum"
        (JsVal.jarr [getField fs "const"]) := by
      rw [htf]
      exact allKey_jsLiteral_not_assigned _ _ _ _ hne_rm hbase_all
    have hkk : hasKey (transformConstToEnum fs) "enum" = true := by
      rw [htf, hasKey_jsLiteral_not_assigned _ _ _ hne_rm]
      exact hbase_has
    constructor
    · have h := convert_getField_of_carry fs "enum" _ hns_enum hkk hak
      simpa using h
    · have h := convert_hasKey_of_carry fs "enum" _ hns_enum hkk hak
      simpa using h
  · intro hu he
    apply convert_hasKey_of_absent fs "enum" hns_enum
    rw [transformConstToEnum_of_undef fs hc hu]
    exact he
  · intro he
    cases hu : (getField fs "const").isUndef with
    | true =>
      have htf := transformConstToEnum_of_undef fs hc hu
      have hak : allKey (transformConstToEnum fs) "enum"
          (getField fs "enum") := by
        rw [htf]
        exact allKey_getField_of_nodup fs "enum" hnd
      have hkk : hasKey (transformConstToEnum fs) "enum" = true := by
        rw [htf]
        exact he
      rw [convert_getField_of_carry fs "enum" _ hns_enum hkk hak,
        ite_isUndef_self]
    | false =>
      have htf := transformConstToEnum_of_def fs hc hu
      have hmem : ("enum", getField fs "enum") ∈ removeKey fs "const" :=
        (mem_removeKey fs "const" _).mpr
          ⟨getField_mem fs "enum" he,
            show ("enum" : String) ≠ "const" by decide⟩
      have hnd' := nodup_keys_removeKey fs "const" hnd
      obtain ⟨hkk, hak⟩ := jsLiteral_allKey_of_mem (removeKey fs "const")
        "enum" (getField fs "enum")
        [("enum", JsVal.jarr [getField fs "const"])] hmem hnd'
      rw [← htf] at hkk hak
      rw [convert_getField_of_carry fs "enum" _ hns_enum hkk hak,
        ite_isUndef_self]

/-- C8 counterexample: for the concrete schema object `{const: 1, enum: [2]}`
(whose `const` value `1` is defined), the converted object's `enum` is the
schema's own `[2]`, not the `[1]` that the claim's unconditional
`enum = [const value]` requires. -/
theorem transformConstToEnum_enum_override :
    getField (fieldsOf (convertBooleanSchemasToObjects
        (.jobj [("const", .jnum 1), ("enum", .jarr [.jnum 2])]))) "enum"
      = .jarr [.jnum 2]
    ∧ getField (fieldsOf (convertBooleanSchemasToObjects
        (.jobj [("const", .jnum 1), ("enum", .jarr [.jnum 2])]))) "enum"
      ≠ .jarr [.jnum 1] := by
  have hns_enum : "enum" ∉ converterSpecials.map (fun e => e.1) := by decide
  have hval : getField (fieldsOf (convertBooleanSchemasToObjects
      (.jobj [("const", .jnum 1), ("enum", .jarr [.jnum 2])]))) "enum"
      = .jarr [.jnum 2] := by
    have htf := transformConstToEnum_of_def
      [("const", .jnum 1), ("enum", .jarr [.jnum 2])] (by decide) (by decide)
    have hmem : (("enum", JsVal.jarr [.jnum 2]) : String × JsVal)
        ∈ removeKey [("const", .jnum 1), ("enum", .jarr [.jnum 2])]
          "const" := by
      rw [show removeKey [("const", JsVal.jnum 1),
        ("enum", JsVal.jarr [.jnum 2])] "const"
        = [("enum", JsVal.jarr [.jnum 2])] from rfl]
      exact List.mem_cons_self _ _
    obtain ⟨hkk, hak⟩ := jsLiteral_allKey_of_mem _ "enum"
      (JsVal.jarr [.jnum 2])
      [("enum", JsVal.jarr [getField [("const", JsVal.jnum 1),
        ("enum", JsVal.jarr [.jnum 2])] "const"])] hmem (by decide)
    rw [← htf] at hkk hak
    rw [convert_getField_of_carry _ "enum" _ hns_enum hkk hak]
    rfl
  refine ⟨hval, ?_⟩
  rw [hval]
  intro hcon
  simp at hcon

/-- Witness for the amended const-elimination theorem at the schema
`{const: "c"}` (the repository's own unit-test input): the output has no
`const` key and its `enum` is `["c"]`. -/
theorem transformConstToEnum_elimination_witness :
    hasKey (fieldsOf (convertBooleanSchemasToObjects
        (.jobj [("const", .jstr "c")]))) "const" = false
    ∧ getField (fieldsOf (convertBooleanSchemasToObjects
        (.jobj [("const", .jstr "c")]))) "enum" = .jarr [.jstr "c"] := by
  have h := transformConstToEnum_elimination [("const", .jstr "c")]
    (by decide) (by decide)
  refine ⟨h.1, ?_⟩
  have h2 := (h.2.1 (by decide) (by decide)).1
  rw [h2]
  rfl

/-! ## Instrumented converter: allocation and mutation tracking (C9)

A second embedding of `src/jsonschema.ts` in which every array and object
value carries the address of the heap cell that holds it.  Object and array
construction draws a fresh address from a monotone counter, and every
in-place mutation the source performs — the `delete` loop of
`stripUndefineds` (always applied to the object literal just built) and the
`newRecord[key] = …` assignments inside `handleSchemaRecord`'s reduce —
appends the address of the mutated object to a write log.  Mutation of the
input is then the statement that some address of an input object appears in
the log; freshness of the output is the statement that the returned root
address is at least the initial counter value. -/

/-- An address-carrying JavaScript value. -/
inductive AVal : Type where
  | undef : AVal
  | abool : Bool → AVal
  | astr : String → AVal
  | anum : Int → AVal
  | aarr : Nat → List AVal → AVal
  | aobj : Nat → List (String × AVal) → AVal
deriving Inhabited

/-- Allocation state: the next fresh address and the log of addresses of
objects that were mutated in place. -/
structure AllocST : Type where
  next : Nat
  writes : List Nat
deriving Inhabited

/-- Allocate a fresh heap cell. -/
def alloc (st : AllocST) : Nat × AllocST :=
  (st.next, ⟨st.next + 1, st.writes⟩)

/-- Record an in-place mutation of the object at address `a`. -/
def logWrite (a : Nat) (st : AllocST) : AllocST :=
  ⟨st.next, a :: st.writes⟩

def AVal.isUndefA : AVal → Bool
  | .undef => true
  | _ => false

def AVal.isArrA : AVal → Bool
  | .aarr _ _ => true
  | _ => false

def getFieldA : List (String × AVal) → String → AVal
  | [], _ => .undef
  | (k, v) :: rest, key => if k = key then v else getFieldA rest key

def hasKeyA (fs : List (String × AVal)) (key : String) : Bool :=
  fs.any (fun kv => kv.1 == key)

def removeKeyA (fs : List (String × AVal)) (key : String) :
    List (String × AVal) :=
  fs.filter (fun kv => kv.1 != key)

def jsSetA (fs : List (String × AVal)) (key : String) (v : AVal) :
    List (String × AVal) :=
  if hasKeyA fs key then
    fs.map (fun kv => if kv.1 = key then (key, v) else kv)
  else fs ++ [(key, v)]

def jsLiteralA (base : List (String × AVal))
    (assignments : List (String × AVal)) : List (String × AVal) :=
  assignments.foldl (fun acc kv => jsSetA acc kv.1 kv.2) base

def stripUndefinedsA (fs : List (String × AVal)) : List (String × AVal) :=
  fs.filter (fun kv => !kv.2.isUndefA)

/-- Instrumented `transformConstToEnum`: the `[constValue]` array literal of
the copied branch allocates a cell that survives into the result; the
intermediate objects (`{enum: …, ...schemaObj}` and `{...schema}`) are
immediately spread into the converter's outer literal and their cells are
dropped, so only the counter is advanced for them.  No branch mutates an
existing object. -/
def transformConstToEnumA (fs : List (String × AVal)) (st : AllocST) :
    List (String × AVal) × AllocST :=
  if hasKeyA fs "const" then
    if (getFieldA fs "const").isUndefA then
      (fs, (alloc st).2)
    else
      (jsLiteralA [("enum", .aarr (alloc st).1 [getFieldA fs "const"])]
        (removeKeyA fs "const"),
        (alloc (alloc st).2).2)
  else
    (fs, (alloc st).2)

lemma getFieldA_sizeOf (fs : List (String × AVal)) (key : String) :
    getFieldA fs key = .undef ∨ sizeOf (getFieldA fs key) < sizeOf fs := by
  induction fs with
  | nil => exact Or.inl rfl
  | cons kv rest ih =>
    obtain ⟨k, v⟩ := kv
    by_cases h : k = key
    · right
      simp only [getFieldA, h, if_true]
      simp only [List.cons.sizeOf_spec, Prod.mk.sizeOf_spec]
      omega
    · rcases ih with h' | h'
      · left
        simpa [getFieldA, h] using h'
      · right
        simp only [getFieldA, h, if_false]
        have hr : sizeOf rest < sizeOf ((k, v) :: rest) := by
          simp only [List.cons.sizeOf_spec, Prod.mk.sizeOf_spec]
          omega
        omega

lemma sizeOf_pos_afields (fs : List (String × AVal)) : 1 ≤ sizeOf fs := by
  cases fs
  · simp
  · simp only [List.cons.sizeOf_spec]
    omega

mutual

/-- Instrumented `convertBooleanSchemasToObjects`: follows the source exactly
as the pure `convertBooleanSchemasToObjects` does, and additionally allocates
the result object and logs the `stripUndefineds` `delete` loop as a write on
that freshly allocated literal.  Non-schema inputs (neither boolean nor
object) again produce an empty object. -/
def convertA : AVal → AllocST → AVal × AllocST
  | .abool true, st => (.aobj (alloc st).1 [], (alloc st).2)
  | .abool false, st =>
    (.aobj (alloc (alloc st).2).1 [("not", .aobj (alloc st).1 [])],
      (alloc (alloc st).2).2)
  | .undef, st => (.aobj (alloc st).1 [], (alloc st).2)
  | .astr _, st => (.aobj (alloc st).1 [], (alloc st).2)
  | .anum _, st => (.aobj (alloc st).1 [], (alloc st).2)
  | .aarr _ _, st => (.aobj (alloc st).1 [], (alloc st).2)
  | .aobj _ fs, st =>
    let p1 := transformConstToEnumA fs st
    let p2 := applySpecialsA converterSpecials fs p1.2
    let p3 := alloc p2.2
    (.aobj p3.1 (stripUndefinedsA (jsLiteralA p1.1 p2.1)),
      logWrite p3.1 p3.2)
termination_by v => (sizeOf v, 0)
decreasing_by
  all_goals simp only [Prod.lex_def]
  all_goals left
  all_goals simp only [AVal.aobj.sizeOf_spec]
  all_goals omega

/-- Instrumented evaluation of the special assignments, in table order. -/
def applySpecialsA (specials : List (String × String × HandlerKind))
    (fs : List (String × AVal)) (st : AllocST) :
    List (String × AVal) × AllocST :=
  match specials with
  | [] => ([], st)
  | (target, src, kind) :: rest =>
    let p1 :=
      match kind with
      | .orArray => handleSchemaOrArrayA (getFieldA fs src) st
      | .record => handleSchemaRecordA (getFieldA fs src) st
    let p2 := applySpecialsA rest fs p1.2
    ((target, p1.1) :: p2.1, p2.2)
termination_by (sizeOf fs, 2 + specials.length)
decreasing_by
  all_goals simp only [Prod.lex_def]
  all_goals first
    | exact Or.inr ⟨trivial, by simp only [List.length_cons]; omega⟩
    | (rcases getFieldA_sizeOf fs src with h | h
       · have h1 := sizeOf_pos_afields fs
         rcases Nat.eq_or_lt_of_le h1 with h2 | h2
         · exact Or.inr ⟨by rw [h]; simp only [AVal.undef.sizeOf_spec]; omega,
             by simp only [List.length_cons]; omega⟩
         · exact Or.inl (by rw [h]; simp only [AVal.undef.sizeOf_spec]; omega)
       · exact Or.inl h)

/-- Instrumented `handleSchemaOrArray`: `value.map(…)` allocates the new
array cell holding the converted elements. -/
def handleSchemaOrArrayA : AVal → AllocST → AVal × AllocST
  | .undef, st => (.undef, st)
  | .aarr _ xs, st =>
    let p1 := convertListA xs st
    let p2 := alloc p1.2
    (.aarr p2.1 p1.1, p2.2)
  | v, st => convertA v st
termination_by v => (sizeOf v, 1)
decreasing_by
  all_goals simp only [Prod.lex_def]
  all_goals first
    | exact Or.inl (by simp only [AVal.aarr.sizeOf_spec]; omega)
    | exact Or.inr ⟨trivial, by omega⟩

/-- Element-by-element conversion used by the instrumented array map. -/
def convertListA : List AVal → AllocST → List AVal × AllocST
  | [], st => ([], st)
  | x :: xs, st =>
    let p1 := convertA x st
    let p2 := convertListA xs p1.2
    (p1.1 :: p2.1, p2.2)
termination_by xs => (sizeOf xs, 0)
decreasing_by
  all_goals simp only [Prod.lex_def]
  all_goals left
  all_goals simp only [List.cons.sizeOf_spec]
  all_goals omega

/-- Instrumented `handleSchemaRecord`: the reduce seed `{}` is allocated
fresh, and every `newRecord[key] = …` assignment is logged as a write on
that seed.  A non-object non-`undefined` argument has no entries and reduces
to the freshly allocated `{}`. -/
def handleSchemaRecordA : AVal → AllocST → AVal × AllocST
  | .undef, st => (.undef, st)
  | .aobj _ fs, st =>
    let p1 := alloc st
    let p2 := recordEntriesA p1.1 fs p1.2
    (.aobj p1.1 p2.1, p2.2)
  | _, st =>
    let p1 := alloc st
    (.aobj p1.1 [], p1.2)
termination_by v => (sizeOf v, 1)
decreasing_by
  simp only [Prod.lex_def]
  left
  simp only [AVal.aobj.sizeOf_spec]
  omega

/-- The body of `handleSchemaRecord`'s reduce over the record entries:
each entry converts its value when it is neither `undefined` nor an array,
and writes the result into the accumulator object at address `r`. -/
def recordEntriesA (r : Nat) : List (String × AVal) → AllocST →
    List (String × AVal) × AllocST
  | [], st => ([], st)
  | (k, val) :: rest, st =>
    let p1 :=
      if !val.isUndefA && !val.isArrA then convertA val st else (val, st)
    let st2 := logWrite r p1.2
    let p2 := recordEntriesA r rest st2
    ((k, p1.1) :: p2.1, p2.2)
termination_by fs => (sizeOf fs, 0)
decreasing_by
  all_goals simp only [Prod.lex_def]
  all_goals left
  all_goals simp only [List.cons.sizeOf_spec, Prod.mk.sizeOf_spec]
  all_goals omega

end

/-! ### Allocation-state evolution -/

/-- Well-behaved state evolution `st → st'`: the counter only grows, the
write log only grows, and every logged write is either an old one or hits an
address allocated at or after `st.next`. -/
def StOK (st st' : AllocST) : Prop :=
  st.next ≤ st'.next ∧ (∀ a ∈ st.writes, a ∈ st'.writes) ∧
    ∀ a ∈ st'.writes, a ∈ st.writes ∨ st.next ≤ a

/-- As `StOK`, but additionally allowing writes to the single accumulator
address `r` (used for `handleSchemaRecord`'s reduce object). -/
def StOKr (r : Nat) (st st' : AllocST) : Prop :=
  st.next ≤ st'.next ∧ (∀ a ∈ st.writes, a ∈ st'.writes) ∧
    ∀ a ∈ st'.writes, a ∈ st.writes ∨ st.next ≤ a ∨ a = r

lemma StOK_refl (st : AllocST) : StOK st st :=
  ⟨le_refl _, fun _ ha => ha, fun a ha => Or.inl ha⟩

lemma StOK_trans {s1 s2 s3 : AllocST} (h1 : StOK s1 s2) (h2 : StOK s2 s3) :
    StOK s1 s3 := by
  refine ⟨le_trans h1.1 h2.1, fun a ha => h2.2.1 a (h1.2.1 a ha),
    fun a ha => ?_⟩
  rcases h2.2.2 a ha with h | h
  · exact h1.2.2 a h
  · exact Or.inr (le_trans h1.1 h)

lemma StOK_alloc (st : AllocST) : StOK st (alloc st).2 :=
  ⟨by simp [alloc], fun _ ha => ha, fun a ha => Or.inl ha⟩

lemma StOK_logWrite (st : AllocST) (a : Nat) (h : st.next ≤ a) :
    StOK st (logWrite a st) := by
  refine ⟨le_refl _, fun b hb => List.mem_cons_of_mem _ hb, fun b hb => ?_⟩
  rcases List.mem_cons.mp hb with rfl | hb'
  · exact Or.inr h
  · exact Or.inl hb'

lemma StOKr_of_StOK {r : Nat} {s1 s2 : AllocST} (h : StOK s1 s2) :
    StOKr r s1 s2 :=
  ⟨h.1, h.2.1, fun a ha => (h.2.2 a ha).elim Or.inl (fun hh => Or.inr (Or.inl hh))⟩

lemma StOKr_trans {r : Nat} {s1 s2 s3 : AllocST} (h1 : StOKr r s1 s2)
    (h2 : StOKr r s2 s3) : StOKr r s1 s3 := by
  refine ⟨le_trans h1.1 h2.1, fun a ha => h2.2.1 a (h1.2.1 a ha),
    fun a ha => ?_⟩
  rcases h2.2.2 a ha with h | h | h
  · exact h1.2.2 a h
  · exact Or.inr (Or.inl (le_trans h1.1 h))
  · exact Or.inr (Or.inr h)

lemma StOKr_logWrite_self (r : Nat) (st : AllocST) :
    StOKr r st (logWrite r st) := by
  refine ⟨le_refl _, fun b hb => List.mem_cons_of_mem _ hb, fun b hb => ?_⟩
  rcases List.mem_cons.mp hb with rfl | hb'
  · exact Or.inr (Or.inr rfl)
  · exact Or.inl hb'

lemma StOK_transformConstToEnumA (fs : List (String × AVal)) (st : AllocST) :
    StOK st (transformConstToEnumA fs st).2 := by
  unfold transformConstToEnumA
  split
  · split
    · exact StOK_alloc st
    · exact StOK_trans (StOK_alloc st) (StOK_alloc (alloc st).2)
  · exact StOK_alloc st

/-- The state evolution and output freshness of the instrumented converter:
the counter is monotone, the write log grows only by addresses allocated
during the call, and the returned root is an object freshly allocated during
the call. -/
def ConvOK (v : AVal) (st : AllocST) : Prop :=
  StOK st (convertA v st).2 ∧
    ∃ addr gs, (convertA v st).1 = .aobj addr gs ∧
      st.next ≤ addr ∧ addr < (convertA v st).2.next

lemma StOK_alloc_logWrite (st : AllocST) :
    StOK st (logWrite (alloc st).1 (alloc st).2) := by
  refine ⟨le_of_lt (by simp [alloc, logWrite]),
    fun b hb => List.mem_cons_of_mem _ hb, fun b hb => ?_⟩
  rcases List.mem_cons.mp hb with rfl | hb'
  · exact Or.inr (le_refl _)
  · exact Or.inl hb'

lemma StOK_of_StOKr_alloc (st s' : AllocST)
    (h : StOKr (alloc st).1 (alloc st).2 s') : StOK st s' := by
  refine ⟨?_, fun b hb => h.2.1 b hb, fun b hb => ?_⟩
  · have h1 := h.1
    simp only [alloc] at h1
    omega
  · rcases h.2.2 b hb with hh | hh | hh
    · exact Or.inl hh
    · right
      simp only [alloc] at hh
      omega
    · right
      rw [hh]
      simp [alloc]

lemma convertA_ok : ∀ (v : AVal) (st : AllocST), ConvOK v st := by
  intro v st
  induction v, st using convertA.induct
  case motive2 =>
    rename_i specs gs stx
    exact StOK stx (applySpecialsA specs gs stx).2
  case motive3 =>
    rename_i w stx
    exact StOK stx (handleSchemaRecordA w stx).2
  case motive4 =>
    rename_i r gs stx
    exact StOKr r stx (recordEntriesA r gs stx).2
  case motive5 =>
    rename_i w stx
    exact StOK stx (handleSchemaOrArrayA w stx).2
  case motive6 =>
    rename_i xs stx
    exact StOK stx (convertListA xs stx).2
  case case1 =>
    rename_i stx
    simp only [ConvOK, convertA]
    refine ⟨StOK_alloc _, _, _, rfl, le_refl _, by simp [alloc]⟩
  case case2 =>
    rename_i stx
    simp only [ConvOK, convertA]
    refine ⟨StOK_trans (StOK_alloc _) (StOK_alloc _), _, _, rfl, ?_, ?_⟩
    · simp [alloc]
    · simp [alloc]
  case case3 =>
    rename_i stx
    simp only [ConvOK, convertA]
    refine ⟨StOK_alloc _, _, _, rfl, le_refl _, by simp [alloc]⟩
  case case4 =>
    rename_i s stx
    simp only [ConvOK, convertA]
    refine ⟨StOK_alloc _, _, _, rfl, le_refl _, by simp [alloc]⟩
  case case5 =>
    rename_i n stx
    simp only [ConvOK, convertA]
    refine ⟨StOK_alloc _, _, _, rfl, le_refl _, by simp [alloc]⟩
  case case6 =>
    rename_i a xs stx
    simp only [ConvOK, convertA]
    refine ⟨StOK_alloc _, _, _, rfl, le_refl _, by simp [alloc]⟩
  case case7 =>
    rename_i a gs stx p1 ih
    simp only [ConvOK, convertA]
    have h1 := StOK_transformConstToEnumA gs stx
    have h2 : StOK stx
        (applySpecialsA converterSpecials gs
          (transformConstToEnumA gs stx).2).2 :=
      StOK_trans h1 ih
    refine ⟨StOK_trans h2 (StOK_alloc_logWrite _), _, _, rfl, ?_, ?_⟩
    · exact le_trans h2.1 (le_refl _)
    · simp [alloc, logWrite]
  case case8 =>
    rename_i gs stx
    simp only [applySpecialsA]
    exact StOK_refl stx
  case case9 =>
    rename_i gs stx t s k rest p1 ih3 ih2 ih1
    cases k with
    | orArray =>
      simp only [applySpecialsA] at ih1 ⊢
      exact StOK_trans ih3 ih1
    | record =>
      simp only [applySpecialsA] at ih1 ⊢
      exact StOK_trans ih2 ih1
  case case10 =>
    rename_i stx
    simp only [handleSchemaRecordA]
    exact StOK_refl stx
  case case11 =>
    rename_i a gs stx p1 ih
    simp only [handleSchemaRecordA]
    exact StOK_of_StOKr_alloc stx _ ih
  case case12 =>
    rename_i w stx h1 h2
    cases w with
    | undef => exact absurd rfl h1
    | aobj a gs => exact absurd rfl (h2 a gs)
    | abool b =>
      simp only [handleSchemaRecordA]
      exact StOK_alloc stx
    | astr s =>
      simp only [handleSchemaRecordA]
      exact StOK_alloc stx
    | anum n =>
      simp only [handleSchemaRecordA]
      exact StOK_alloc stx
    | aarr a xs =>
      simp only [handleSchemaRecordA]
      exact StOK_alloc stx
  case case13 =>
    rename_i r stx
    simp only [recordEntriesA]
    exact StOKr_of_StOK (StOK_refl stx)
  case case14 =>
    rename_i r k val rest stx p1 st2 ih2 ih1
    simp only [recordEntriesA] at ih1 ⊢
    have hstep : StOKr r stx
        (if (!val.isUndefA && !val.isArrA) = true then convertA val stx
          else (val, stx)).2 := by
      by_cases hc : (!val.isUndefA && !val.isArrA) = true
      · rw [if_pos hc]
        exact StOKr_of_StOK ih2.1
      · rw [if_neg hc]
        exact StOKr_of_StOK (StOK_refl stx)
    exact StOKr_trans hstep (StOKr_trans (StOKr_logWrite_self r _) ih1)
  case case15 =>
    rename_i stx
    simp only [handleSchemaOrArrayA]
    exact StOK_refl stx
  case case16 =>
    rename_i a xs stx ih
    simp only [handleSchemaOrArrayA]
    exact StOK_trans ih (StOK_alloc _)
  case case17 =>
    rename_i w stx h1 h2 ih
    cases w with
    | undef => exact absurd rfl h1
    | aarr a xs => exact absurd rfl (h2 a xs)
    | abool b =>
      simp only [handleSchemaOrArrayA]
      exact ih.1
    | astr s =>
      simp only [handleSchemaOrArrayA]
      exact ih.1
    | anum n =>
      simp only [handleSchemaOrArrayA]
      exact ih.1
    | aobj a gs =>
      simp only [handleSchemaOrArrayA]
      exact ih.1
  case case18 =>
    rename_i stx
    simp only [convertListA]
    exact StOK_refl stx
  case case19 =>
    rename_i x xs stx p1 ih2 ih1
    simp only [convertListA] at ih1 ⊢
    exact StOK_trans ih2.1 ih1

/-- C9: the instrumented converter never mutates its input schema.  The
allocation counter is monotone; every address in the final write log is
either an initial entry or an address allocated during the call — so any
pre-existing object, in particular the input schema and each of its
sub-objects (whose addresses are below `st.next`), has exactly the same
write history as before, and `S` stays deep-equal to its pre-call value —
and the returned root is a freshly constructed object whose address is at
least `st.next`, hence distinct from every input object.  Because the
statement is quantified over every value and state, it applies at each
recursive call, so every recursively converted nested sub-schema in the
output is likewise a newly constructed object distinct from the
corresponding input sub-schema. -/
theorem convertA_no_mutation (v : AVal) (st : AllocST) :
    st.next ≤ (convertA v st).2.next
    ∧ (∀ a, a < st.next →
        ((a ∈ (convertA v st).2.writes) ↔ a ∈ st.writes))
    ∧ ∃ addr gs, (convertA v st).1 = .aobj addr gs ∧ st.next ≤ addr := by
  obtain ⟨hst, addr, gs, hroot, hfresh, _⟩ := convertA_ok v st
  refine ⟨hst.1, fun a ha => ⟨fun h => ?_, fun h => hst.2.1 a h⟩,
    addr, gs, hroot, hfresh⟩
  rcases hst.2.2 a h with h' | h'
  · exact h'
  · omega

/-- Witness for the no-mutation theorem: converting the object `{x: "y"}`
stored at address `0` under a counter starting at `1` leaves address `0`
unwritten and returns a fresh root address `≥ 1`. -/
theorem convertA_no_mutation_witness :
    (0 < AllocST.next ⟨1, []⟩)
    ∧ ((0 ∈ (convertA (.aobj 0 [("x", .astr "y")]) ⟨1, []⟩).2.writes)
        ↔ 0 ∈ AllocST.writes ⟨1, []⟩)
    ∧ ∃ addr gs,
        (convertA (.aobj 0 [("x", .astr "y")]) ⟨1, []⟩).1 = .aobj addr gs
        ∧ 1 ≤ addr :=
  ⟨by decide,
   (convertA_no_mutation (.aobj 0 [("x", .astr "y")]) ⟨1, []⟩).2.1 0
     (by decide),
   (convertA_no_mutation (.aobj 0 [("x", .astr "y")]) ⟨1, []⟩).2.2⟩

/-! ## The document assembler (`src/provider.ts`)

The assembler is generic over the validator type `α`, the generated schema
type `σ`, the example type `ε`, the security-scheme-object type `β`, the
endpoint state-information type `τ`, the static operation metadata type `ω`,
the static path-item metadata type `π` and the `info` object type `ι`,
mirroring how `provider.ts` treats those inputs as opaque. -/

/-- The undefined-possibility oracle's tri-state result
(`true | false | undefined` in the source). -/
inductive Tri : Type where
  | yes : Tri
  | no : Tri
  | unknown : Tri
deriving DecidableEq, Inhabited

/-- Description/deprecation metadata carried by the OpenAPI-facing parameter
metadata objects (`OpenAPIParameterInput`). -/
structure ParamMd : Type where
  description : Option String := none
  deprecated : Option Bool := none
deriving DecidableEq, Inhabited

/-- A parameter schema: the plain generated schema, or — for URL path
parameters — the generated schema extended with the `pattern` field
(`{...stringDecoder(...), pattern: regExp.source}`). -/
inductive PSchema (σ : Type) : Type where
  | plain : σ → PSchema σ
  | withPattern : σ → String → PSchema σ
deriving DecidableEq, Inhabited

/-- `openapi.MediaTypeObject`: the object literal `{example: …}` optionally
extended by `addSchema` with a `schema`. -/
structure MediaTypeObject (σ ε : Type) : Type where
  exampleValue : Option ε
  schema : Option σ := none
deriving DecidableEq, Inhabited

/-- `openapi.HeaderObject` as constructed by `handleResponseHeaders`. -/
structure HeaderObject (σ : Type) : Type where
  md : ParamMd
  required : Bool
  schema : σ
deriving DecidableEq, Inhabited

/-- `openapi.ResponseObject` as constructed by the assembler. -/
structure ResponseObject (σ ε : Type) : Type where
  description : String
  content : Option (List (String × MediaTypeObject σ ε)) := none
  headers : Option (List (String × HeaderObject σ)) := none
deriving DecidableEq, Inhabited

/-- `openapi.ParameterObject` as constructed by the assembler. -/
structure ParameterObject (σ : Type) : Type where
  md : ParamMd
  location : String
  name : String
  required : Bool
  schema : PSchema σ
deriving DecidableEq, Inhabited

/-- `openapi.RequestBodyObject` as constructed by `getRequestBody`. -/
structure RequestBodyObject (σ ε : Type) : Type where
  required : Bool
  content : List (String × MediaTypeObject σ ε)
deriving DecidableEq, Inhabited

/-- `openapi.OperationObject` as constructed by `getOperationObject`; the
static fields spread from `...operation` are kept opaque in `operation`. -/
structure OperationObject (σ ε ω : Type) : Type where
  operation : ω
  responses : List (String × ResponseObject σ ε)
  parameters : Option (List (ParameterObject σ)) := none
  requestBody : Option (RequestBodyObject σ ε) := none
  security : Option (List (List (String × List String))) := none
deriving DecidableEq, Inhabited

/-- One entry of a query/request-header validator spec record. -/
structure FieldSpec (α : Type) : Type where
  required : Bool
  decoder : α

/-- One entry of a response-header validator spec record. -/
structure OutFieldSpec (α : Type) : Type where
  required : Bool
  encoder : α

/-- A request/response body spec: content-type → validator. -/
structure ContentsSpec (α : Type) : Type where
  contents : List (String × α)

/-- The fields of `md.SingleEndpointSpecMetadata` used by the assembler. -/
structure EndpointSpec (α τ : Type) : Type where
  query : Option (List (String × FieldSpec α))
  requestBody : Option (ContentsSpec α)
  requestHeaders : Option (List (String × FieldSpec α))
  responseBody : ContentsSpec α
  responseHeaders : Option (List (String × OutFieldSpec α))
  stateInfo : τ

/-- The OpenAPI-facing response body metadata (`description` and
`mediaTypes[contentType].example`). -/
structure ResponseBodyMd (ε : Type) : Type where
  description : String
  mediaTypes : String → Option ε

/-- The OpenAPI-facing endpoint metadata parameter
(`FullEndpointSpecMDParameter`). -/
structure EndpointMd (σ ε ω : Type) : Type where
  operation : ω
  requestBody : Option (String → Option ε)
  query : Option (String → ParamMd)
  responseBody : ResponseBodyMd ε
  headers : Option (String → ParamMd)
  responseHeaders : Option (String → ParamMd)
  customize400Response :
    Option (ResponseObject σ ε → Option (ResponseObject σ ε))
  customize422Response :
    Option (ResponseObject σ ε → Option (ResponseObject σ ε))

/-- `OperationSecuritySchemeUsage` of `provider.ts`. -/
structure OperationSecuritySchemeUsage (β : Type) : Type where
  schemeID : String
  scheme : β
  requirementData : List String
  isOptional : Bool

/-- `OperationSecurityInformation` of `provider.ts`. -/
structure OperationSecurityInformation (σ ε β : Type) : Type where
  securitySchemes : List (List (OperationSecuritySchemeUsage β))
  ifFailed : ResponseObject σ ε

/-- JavaScript keyed assignment `m[key] = v` on a string-keyed object,
shared by the `responses[…] = …`, `sec[schemeID] = …`,
`securitySchemes[schemeID] = …` and `Object.fromEntries` constructions:
overwrite the binding in place when the key exists, append otherwise. -/
def keySet {γ : Type} (m : List (String × γ)) (key : String) (v : γ) :
    List (String × γ) :=
  if m.any (fun e => e.1 == key) then
    m.map (fun e => if e.1 = key then (key, v) else e)
  else m ++ [(key, v)]

/-- `addSchema` of `provider.ts`: set `schema` only when one was derived. -/
def addSchema {σ ε : Type} (obj : MediaTypeObject σ ε) (schema : Option σ) :
    MediaTypeObject σ ε :=
  match schema with
  | some s => { obj with schema := some s }
  | none => obj

/-- `getContentMap` of `provider.ts`. -/
def getContentMap {α σ ε : Type} (contentEntries : List (String × α))
    (mediaTypes : String → Option ε)
    (generateJSONSchema : String → α → Option σ) :
    List (String × MediaTypeObject σ ε) :=
  contentEntries.map (fun e =>
    (e.1, addSchema ⟨mediaTypes e.1, none⟩ (generateJSONSchema e.1 e.2)))

/-- `getResponseBody` of `provider.ts` (lines 287–338): the loop over the
content entries sets `hasResponse204` when some oracle answer is not
`false`, collects into the 200-response exactly the entries whose oracle
answer is not `true`, and then emits the `204` and/or `200` responses. -/
def getResponseBody {α σ ε : Type} (getUndefinedPossibility : α → Tri)
    (generateJSONSchema : String → α → Option σ)
    (outputSpec : ContentsSpec α) (output : ResponseBodyMd ε) :
    List (String × ResponseObject σ ε) :=
  let contentEntries := outputSpec.contents
  let hasResponse204 :=
    contentEntries.any (fun e => getUndefinedPossibility e.2 != Tri.no)
  let response200Entries :=
    contentEntries.filter (fun e => getUndefinedPossibility e.2 != Tri.yes)
  (if hasResponse204 then
    [("204", ({ description := output.description } : ResponseObject σ ε))]
  else []) ++
  (if response200Entries.length > 0 then
    [("200", (⟨output.description,
      some (getContentMap response200Entries output.mediaTypes
        generateJSONSchema), none⟩ : ResponseObject σ ε))]
  else [])

/-- `handleResponseHeaders` of `provider.ts`: when both the response-header
spec and its metadata exist, every emitted response object receives the
`headers` map. -/
def handleResponseHeaders {α σ ε : Type} (stringEncoder : α → σ)
    (responseHeadersSpec : Option (List (String × OutFieldSpec α)))
    (responseHeadersObject : Option (String → ParamMd))
    (responseObjects : List (String × ResponseObject σ ε)) :
    List (String × ResponseObject σ ε) :=
  match responseHeadersSpec, responseHeadersObject with
  | some spec, some mdf =>
    responseObjects.map (fun r =>
      (r.1, { r.2 with headers := some (spec.map (fun h =>
        (h.1, ⟨mdf h.1, h.2.required, stringEncoder h.2.encoder⟩))) }))
  | _, _ => responseObjects

/-- `getRequestHeaders` of `provider.ts`. -/
def getRequestHeaders {α σ : Type} (stringDecoder : α → σ)
    (requestHeadersSpec : Option (List (String × FieldSpec α)))
    (requestHeadersObject : Option (String → ParamMd)) :
    List (ParameterObject σ) :=
  match requestHeadersSpec, requestHeadersObject with
  | some spec, some mdf =>
    spec.map (fun h =>
      ⟨mdf h.1, "header", h.1, h.2.required,
        .plain (stringDecoder h.2.decoder)⟩)
  | _, _ => []

/-- `getQuery` of `provider.ts`. -/
def getQuery {α σ : Type} (stringDecoder : α → σ)
    (querySpec : Option (List (String × FieldSpec α)))
    (queryObject : Option (String → ParamMd)) :
    List (ParameterObject σ) :=
  match querySpec, queryObject with
  | some spec, some mdf =>
    spec.map (fun q =>
      ⟨mdf q.1, "query", q.1, q.2.required,
        .plain (stringDecoder q.2.decoder)⟩)
  | _, _ => []

/-- `getRequestBody` of `provider.ts` (lines 415–444): `required` is the
negation of "some content type's oracle answer is not `false`". -/
def getRequestBody {α σ ε : Type} (getUndefinedPossibility : α → Tri)
    (generateJSONSchema : String → α → Option σ)
    (inputSpec : ContentsSpec α) (body : String → Option ε) :
    RequestBodyObject σ ε :=
  let inputEntries := inputSpec.contents
  { required :=
      !(inputEntries.any (fun e => getUndefinedPossibility e.2 != Tri.no)),
    content := getContentMap inputEntries body generateJSONSchema }

/-- `getOperationObject` of `provider.ts` (lines 166–285).  The record
`securitySchemes` that the source mutates in place is threaded explicitly:
the function returns the built operation object together with the updated
scheme record.  The `optionalSecuritySchemeSeen` flag, accumulated by the
source inside the reduce over every usage of every usage-group, equals
"some usage in some group is optional". -/
def getOperationObject {α σ ε β τ ω : Type}
    (getUndefinedPossibility : α → Tri)
    (generateDecoderJSONSchema generateEncoderJSONSchema :
      String → α → Option σ)
    (stringDecoder stringEncoder : α → σ)
    (getSecurityObjects : τ → Option (OperationSecurityInformation σ ε β))
    (spec : EndpointSpec α τ) (mdArg : EndpointMd σ ε ω)
    (securitySchemes : List (String × β)) (hasURLParameters : Bool) :
    OperationObject σ ε ω × List (String × β) :=
  -- lines 201–216: response objects and headers
  let responseObjects := handleResponseHeaders stringEncoder
    spec.responseHeaders mdArg.responseHeaders
    (getResponseBody getUndefinedPossibility generateEncoderJSONSchema
      spec.responseBody mdArg.responseBody)
  let operationObject0 : OperationObject σ ε ω :=
    { operation := mdArg.operation, responses := responseObjects }
  -- lines 217–227: parameters
  let requestHeaderParams :=
    getRequestHeaders stringDecoder spec.requestHeaders mdArg.headers
  let prevLength := requestHeaderParams.length
  let hasRequestHeaders := decide (prevLength > 0)
  let parameters :=
    requestHeaderParams ++ getQuery stringDecoder spec.query mdArg.query
  let hasQueryParameters := decide (parameters.length > prevLength)
  let operationObject1 :=
    if parameters.length > 0 then
      { operationObject0 with parameters := some parameters }
    else operationObject0
  -- lines 229–242: request body and response 422
  let operationObject2 :=
    match spec.requestBody, mdArg.requestBody with
    | some requestBody, some requestBodyObject =>
      let response422 : ResponseObject σ ε :=
        ⟨"If request body validation fails.", none, none⟩
      { operationObject1 with
        requestBody := some (getRequestBody getUndefinedPossibility
          generateDecoderJSONSchema requestBody requestBodyObject),
        responses := keySet operationObject1.responses "422"
          (match mdArg.customize422Response with
           | some f => (f response422).getD response422
           | none => response422) }
    | _, _ => operationObject1
  -- lines 244–266: security
  let secResult :=
    match getSecurityObjects spec.stateInfo with
    | some security =>
      if security.securitySchemes.length > 0 then
        let optionalSecuritySchemeSeen := security.securitySchemes.any
          (fun (g : List (OperationSecuritySchemeUsage β)) =>
            g.any (fun u => u.isOptional))
        let secArr := security.securitySchemes.map
          (fun (g : List (OperationSecuritySchemeUsage β)) =>
            g.foldl (fun sec (u : OperationSecuritySchemeUsage β) =>
              keySet sec u.schemeID u.requirementData) [])
        some (security,
          if optionalSecuritySchemeSeen then
            ([] : List (String × List String)) :: secArr
          else secArr)
      else none
    | none => none
  let operationObject3 :=
    match secResult with
    | some (security, secArr) =>
      { operationObject2 with
        security := some secArr,
        responses := keySet operationObject2.responses "401"
          security.ifFailed }
    | none => operationObject2
  let securitySchemesOut :=
    match secResult with
    | some (security, _) =>
      security.securitySchemes.join.foldl
        (fun m (u : OperationSecuritySchemeUsage β) =>
          keySet m u.schemeID u.scheme) securitySchemes
    | none => securitySchemes
  -- lines 268–282: response 400
  let operationObject4 :=
    if hasRequestHeaders || hasQueryParameters || hasURLParameters then
      let conditionString := String.intercalate " or "
        ((([("URL path parameters", hasURLParameters), ("query",
            hasQueryParameters),
            ("request headers", hasRequestHeaders)]).filter
          (fun e => e.2)).map (fun e => e.1))
      let response400 : ResponseObject σ ε :=
        ⟨"If " ++ conditionString ++ " fail validation.", none, none⟩
      { operationObject3 with
        responses := keySet operationObject3.responses "400"
          (match mdArg.customize400Response with
           | some f => (f response400).getD response400
           | none => response400) }
    else operationObject3
  (operationObject4, securitySchemesOut)

/-- One entry of the URL parameter validator spec
(`urlSpec[name].decoder` and `urlSpec[name].regExp.source`). -/
structure URLParameterSpecEntry (α : Type) : Type where
  decoder : α
  regExpSource : String

/-- `getURLParameters` of `provider.ts`: each URL parameter metadata entry
becomes an `in: "path"`, `required: true` parameter whose schema is the
decoder's schema extended with the pattern, and the list is sorted by the
parameter's first occurrence in the URL pattern (JavaScript's
`Array.prototype.sort` with an index-difference comparator: a stable
ascending sort; absent names index as `-1`). -/
def urlPatternIdx (patternSpec : List (String ⊕ String))
    (name : String) : Int :=
  match patternSpec.findIdx? (fun v =>
    match v with
    | .inr n => n == name
    | .inl _ => false) with
  | some i => (i : Int)
  | none => -1

def getURLParameters {α σ : Type} (stringDecoder : α → σ)
    (urlSpec : String → URLParameterSpecEntry α)
    (urlObject : List (String × ParamMd))
    (patternSpec : List (String ⊕ String)) : List (ParameterObject σ) :=
  let urlParamObjects : List (ParameterObject σ) := urlObject.map (fun e =>
    ⟨e.2, "path", e.1, true,
      .withPattern (stringDecoder (urlSpec e.1).decoder)
        (urlSpec e.1).regExpSource⟩)
  urlParamObjects.mergeSort
    (fun (x y : ParameterObject σ) =>
      decide (urlPatternIdx patternSpec x.name ≤
        urlPatternIdx patternSpec y.name))

/-- `getUrlPathString` of `provider.ts`. -/
def getUrlPathString (urlSpec : List (String ⊕ String)) : String :=
  String.join (urlSpec.map (fun e =>
    match e with
    | .inl s => s
    | .inr name => "\x7b" ++ name ++ "\x7d"))

/-- The `PathItemObject` built by `afterDefiningURLEndpoints`: the static
fields spread from `...pathItemData`, the per-method operations, and the
shared URL parameters. -/
structure PathItem (σ ε ω π : Type) : Type where
  static : π
  methods : List (String × OperationObject σ ε ω)
  parameters : Option (List (ParameterObject σ)) := none

/-- The per-URL-pattern value returned by `afterDefiningURLEndpoints`. -/
structure PathEntry (σ ε ω π β : Type) : Type where
  pattern : String
  pathItem : PathItem σ ε ω π
  securitySchemes : List (String × β)

/-- The first argument of `afterDefiningURLEndpoints`
(`{patternSpec, md: {pathItem, url}, url}`). -/
structure URLArgs (α π : Type) : Type where
  patternSpec : List (String ⊕ String)
  pathItemMd : π
  urlParameters : Option (List (String × ParamMd))
  urlMD : String → URLParameterSpecEntry α

/-- One endpoint of the `endpoints` record passed to
`afterDefiningURLEndpoints` (`{spec, md}`). -/
structure EndpointInfo (α τ σ ε ω : Type) : Type where
  spec : EndpointSpec α τ
  md : EndpointMd σ ε ω

/-- `afterDefiningURLEndpoints` of `provider.ts` (lines 63–110): builds the
path item from the static metadata and the per-method operation objects
(method names lower-cased), adds the shared URL parameters when the URL has
parameters, and returns the rendered pattern together with the security
schemes registered by all the operations (the source passes one mutable
record to every `getOperationObject` call; here it is folded through). -/
def afterDefiningURLEndpoints {α σ ε β τ ω π : Type}
    (getUndefinedPossibility : α → Tri)
    (generateDecoderJSONSchema generateEncoderJSONSchema :
      String → α → Option σ)
    (stringDecoder stringEncoder : α → σ)
    (getSecurityObjects : τ → Option (OperationSecurityInformation σ ε β))
    (args : URLArgs α π)
    (endpoints : List (String × EndpointInfo α τ σ ε ω)) :
    PathEntry σ ε ω π β :=
  let hasURLParameters :=
    match args.urlParameters with
    | some l => decide (l.length > 0)
    | none => false
  let built := endpoints.foldl (fun acc e =>
    let r := getOperationObject getUndefinedPossibility
      generateDecoderJSONSchema generateEncoderJSONSchema stringDecoder
      stringEncoder getSecurityObjects e.2.spec e.2.md acc.2
      hasURLParameters
    (keySet acc.1 e.1.toLower r.1, r.2))
    (([] : List (String × OperationObject σ ε ω)), ([] : List (String × β)))
  let pathItem : PathItem σ ε ω π :=
    { static := args.pathItemMd,
      methods := built.1,
      parameters :=
        if hasURLParameters then
          some (getURLParameters stringDecoder args.urlMD
            (args.urlParameters.getD []) args.patternSpec)
        else none }
  { pattern := getUrlPathString args.patternSpec,
    pathItem := pathItem,
    securitySchemes := built.2 }

/-- The `openapi.Document` built by `createFinalMetadata`; the only
component the assembler ever generates is `securitySchemes`, so
`components` is that map when present. -/
structure ProviderDoc (σ ε ω π β ι : Type) : Type where
  openapi : String
  info : ι
  paths : List (String × PathItem σ ε ω π)
  components : Option (List (String × β)) := none

/-- `createFinalMetadata` of `provider.ts` (lines 111–133): merge every
path entry's security schemes (`Object.assign`, last write per scheme ID
wins), emit `components` only when non-empty, and build `paths` with
`Object.fromEntries` over **all** path entries. -/
def createFinalMetadata {σ ε ω π β ι : Type} (info : ι)
    (paths : List (PathEntry σ ε ω π β)) : ProviderDoc σ ε ω π β ι :=
  let allSecuritySchemes := paths.foldl
    (fun m e => e.securitySchemes.foldl
      (fun m2 kv => keySet m2 kv.1 kv.2) m) []
  { openapi := "3.0.3",
    info := info,
    paths := paths.foldl (fun m e => keySet m e.pattern e.pathItem) [],
    components :=
      if allSecuritySchemes.length > 0 then some allSecuritySchemes
      else none }

/-! ### Lookup lemmas for keyed maps -/

lemma lookup_map_set_self {γ : Type} (m : List (String × γ)) (key : String)
    (v : γ) (h : (m.any fun e => e.1 == key) = true) :
    List.lookup key (m.map (fun e => if e.1 = key then (key, v) else e))
      = some v := by
  induction m with
  | nil => cases h
  | cons a rest ih =>
    obtain ⟨k, w⟩ := a
    simp only [List.map_cons]
    by_cases hk : k = key
    · rw [show (if ((k, w) : String × γ).1 = key then (key, v)
          else (k, w)) = (key, v) by simp [hk]]
      simp [List.lookup]
    · rw [show (if ((k, w) : String × γ).1 = key then (key, v)
          else (k, w)) = (k, w) by simp [hk]]
      have hb : (key == k) = false := by
        simp only [beq_eq_false_iff_ne, ne_eq]
        exact fun hc => hk hc.symm
      simp only [List.lookup, hb]
      apply ih
      simp only [List.any_cons] at h
      rcases Bool.or_eq_true_iff.mp h with h1 | h1
      · exact absurd (by simpa using h1) hk
      · exact h1

lemma lookup_append_single_self {γ : Type} (m : List (String × γ))
    (key : String) (v : γ) (h : (m.any fun e => e.1 == key) = false) :
    List.lookup key (m ++ [(key, v)]) = some v := by
  induction m with
  | nil => simp [List.lookup]
  | cons a rest ih =>
    obtain ⟨k, w⟩ := a
    simp only [List.any_cons, Bool.or_eq_false_iff] at h
    have hk : k ≠ key := by simpa using h.1
    have hb : (key == k) = false := by
      simp only [beq_eq_false_iff_ne, ne_eq]
      exact fun hc => hk hc.symm
    simp only [List.cons_append, List.lookup, hb]
    exact ih h.2

lemma lookup_keySet_self {γ : Type} (m : List (String × γ)) (key : String)
    (v : γ) : (keySet m key v).lookup key = some v := by
  unfold keySet
  split
  · rename_i h
    exact lookup_map_set_self m key v h
  · rename_i h
    exact lookup_append_single_self m key v (Bool.eq_false_iff.mpr h)

lemma lookup_map_set_ne {γ : Type} (m : List (String × γ))
    (key key' : String) (v : γ) (hne : key' ≠ key) :
    List.lookup key' (m.map (fun e => if e.1 = key then (key, v) else e))
      = List.lookup key' m := by
  induction m with
  | nil => rfl
  | cons a rest ih =>
    obtain ⟨k, w⟩ := a
    simp only [List.map_cons]
    by_cases hk : k = key
    · rw [show (if ((k, w) : String × γ).1 = key then (key, v)
          else (k, w)) = (key, v) by simp [hk]]
      have hb1 : (key' == key) = false := by
        simp only [beq_eq_false_iff_ne, ne_eq]
        exact hne
      have hb2 : (key' == k) = false := by
        simp only [beq_eq_false_iff_ne, ne_eq, hk]
        exact hne
      simp only [List.lookup, hb1, hb2]
      exact ih
    · rw [show (if ((k, w) : String × γ).1 = key then (key, v)
          else (k, w)) = (k, w) by simp [hk]]
      by_cases h2 : k = key'
      · simp [List.lookup, h2]
      · have hb : (key' == k) = false := by
          simp only [beq_eq_false_iff_ne, ne_eq]
          exact fun hc => h2 hc.symm
        simp only [List.lookup, hb]
        exact ih

lemma lookup_append_single_ne {γ : Type} (m : List (String × γ))
    (key key' : String) (v : γ) (hne : key' ≠ key) :
    List.lookup key' (m ++ [(key, v)]) = List.lookup key' m := by
  induction m with
  | nil =>
    have hb : (key' == key) = false := by
      simp only [beq_eq_false_iff_ne, ne_eq]
      exact hne
    simp [List.lookup, hb]
  | cons a rest ih =>
    obtain ⟨k, w⟩ := a
    by_cases h2 : k = key'
    · simp [List.lookup, h2]
    · have hb : (key' == k) = false := by
        simp only [beq_eq_false_iff_ne, ne_eq]
        exact fun hc => h2 hc.symm
      simp only [List.cons_append, List.lookup, hb]
      exact ih

lemma lookup_keySet_ne {γ : Type} (m : List (String × γ)) (key key' : String)
    (v : γ) (hne : key' ≠ key) :
    (keySet m key v).lookup key' = m.lookup key' := by
  unfold keySet
  split
  · exact lookup_map_set_ne m key key' v hne
  · exact lookup_append_single_ne m key key' v hne

lemma nodup_key_unique {γ : Type} (l : List (String × γ))
    (hnd : (l.map Prod.fst).Nodup) (k : String) (a b : γ)
    (ha : (k, a) ∈ l) (hb : (k, b) ∈ l) : a = b := by
  induction l with
  | nil => cases ha
  | cons x rest ih =>
    rw [List.map_cons, List.nodup_cons] at hnd
    rcases List.mem_cons.mp ha with rfl | ha'
    · rcases List.mem_cons.mp hb with hb2 | hb'
      · exact (show b = a by simpa using hb2).symm
      · exfalso
        exact hnd.1 (List.mem_map.mpr ⟨(k, b), hb', rfl⟩)
    · rcases List.mem_cons.mp hb with rfl | hb'
      · exfalso
        exact hnd.1 (List.mem_map.mpr ⟨(k, a), ha', rfl⟩)
      · exact ih hnd.2 ha' hb'

/-! ### Claim C6: request body `required` flag -/

/-- C6: for every declared request body, the generated `RequestBodyObject`'s
`required` flag is `true` exactly when the undefined-possibility oracle
answers `false` for every content type's validator, and `false` exactly when
the oracle answers something other than `false` (`true` or indeterminate)
for at least one content type's validator. -/
theorem getRequestBody_required_iff {α σ ε : Type}
    (getUndefinedPossibility : α → Tri)
    (generateJSONSchema : String → α → Option σ)
    (inputSpec : ContentsSpec α) (body : String → Option ε) :
    ((getRequestBody getUndefinedPossibility generateJSONSchema inputSpec
        body).required = true ↔
      ∀ e ∈ inputSpec.contents, getUndefinedPossibility e.2 = Tri.no)
    ∧ ((getRequestBody getUndefinedPossibility generateJSONSchema inputSpec
        body).required = false ↔
      ∃ e ∈ inputSpec.contents, getUndefinedPossibility e.2 ≠ Tri.no) := by
  constructor
  · simp [getRequestBody, List.any_eq_true, bne_eq_false_iff_eq]
  · simp [getRequestBody, List.any_eq_true, bne_iff_ne]

/-! ### Claim C2: tri-state response split -/

lemma getResponseBody_lookup_204 {α σ ε : Type}
    (getUndefinedPossibility : α → Tri)
    (generateJSONSchema : String → α → Option σ)
    (outputSpec : ContentsSpec α) (output : ResponseBodyMd ε) :
    (getResponseBody getUndefinedPossibility generateJSONSchema outputSpec
        output).lookup "204" =
      if outputSpec.contents.any
          (fun e => getUndefinedPossibility e.2 != Tri.no) then
        some (⟨output.description, none, none⟩ : ResponseObject σ ε)
      else none := by
  unfold getResponseBody
  by_cases h204 : outputSpec.contents.any
      (fun e => getUndefinedPossibility e.2 != Tri.no) = true
  · simp only [h204, if_true]
    simp [List.lookup]
  · simp only [Bool.not_eq_true] at h204
    by_cases h200 : (outputSpec.contents.filter
        (fun e => getUndefinedPossibility e.2 != Tri.yes)).length > 0
    · simp [h204, h200, List.lookup]
    · simp [h204, h200, List.lookup]

lemma getResponseBody_lookup_200 {α σ ε : Type}
    (getUndefinedPossibility : α → Tri)
    (generateJSONSchema : String → α → Option σ)
    (outputSpec : ContentsSpec α) (output : ResponseBodyMd ε) :
    (getResponseBody getUndefinedPossibility generateJSONSchema outputSpec
        output).lookup "200" =
      if (outputSpec.contents.filter
          (fun e => getUndefinedPossibility e.2 != Tri.yes)).length > 0 then
        some (⟨output.description,
          some (getContentMap (outputSpec.contents.filter
              (fun e => getUndefinedPossibility e.2 != Tri.yes))
            output.mediaTypes generateJSONSchema), none⟩ : ResponseObject σ ε)
      else none := by
  unfold getResponseBody
  by_cases h204 : outputSpec.contents.any
      (fun e => getUndefinedPossibility e.2 != Tri.no) = true
  · simp only [h204, if_true]
    by_cases h200 : (outputSpec.contents.filter
        (fun e => getUndefinedPossibility e.2 != Tri.yes)).length > 0
    · simp only [if_pos h200]
      simp [List.lookup]
    · simp only [if_neg h200]
      simp [List.lookup]
  · simp only [Bool.not_eq_true] at h204
    by_cases h200 : (outputSpec.contents.filter
        (fun e => getUndefinedPossibility e.2 != Tri.yes)).length > 0
    · simp [h204, h200, List.lookup]
    · simp [h204, h200, List.lookup]

lemma getContentMap_keys {α σ ε : Type} (contentEntries : List (String × α))
    (mediaTypes : String → Option ε)
    (generateJSONSchema : String → α → Option σ) :
    (getContentMap contentEntries mediaTypes generateJSONSchema).map
        Prod.fst = contentEntries.map Prod.fst := by
  simp [getContentMap]

/-- C2: for every response-body content type: when the oracle answers
`true` for its validator, a `204` response is produced and the content type
has no entry under any `200` response; when the oracle answers `false`, the
content type appears under the `200` response, and a `204` exists only
because of (iff there is) some content type whose oracle answer is not
`false`; when the oracle is indeterminate, both the `204` response and a
`200` response containing that content type exist simultaneously. -/
theorem getResponseBody_tristate {α σ ε : Type}
    (getUndefinedPossibility : α → Tri)
    (generateJSONSchema : String → α → Option σ)
    (outputSpec : ContentsSpec α) (output : ResponseBodyMd ε)
    (hnd : (outputSpec.contents.map Prod.fst).Nodup)
    (ct : String) (enc : α) (hmem : (ct, enc) ∈ outputSpec.contents) :
    (getUndefinedPossibility enc = Tri.yes →
      ((getResponseBody getUndefinedPossibility generateJSONSchema
        outputSpec output).lookup "204").isSome = true ∧
      ∀ r, (getResponseBody getUndefinedPossibility generateJSONSchema
          outputSpec output).lookup "200" = some r →
        ct ∉ (r.content.getD []).map Prod.fst) ∧
    (getUndefinedPossibility enc = Tri.no →
      (∃ r, (getResponseBody getUndefinedPossibility generateJSONSchema
          outputSpec output).lookup "200" = some r ∧
        ct ∈ (r.content.getD []).map Prod.fst) ∧
      (((getResponseBody getUndefinedPossibility generateJSONSchema
          outputSpec output).lookup "204").isSome = true ↔
        ∃ e ∈ outputSpec.contents,
          getUndefinedPossibility e.2 ≠ Tri.no)) ∧
    (getUndefinedPossibility enc = Tri.unknown →
      ((getResponseBody getUndefinedPossibility generateJSONSchema
        outputSpec output).lookup "204").isSome = true ∧
      ∃ r, (getResponseBody getUndefinedPossibility generateJSONSchema
          outputSpec output).lookup "200" = some r ∧
        ct ∈ (r.content.getD []).map Prod.fst) := by
  have h200mem : ∀ hne : getUndefinedPossibility enc ≠ Tri.yes,
      ∃ r, (getResponseBody getUndefinedPossibility generateJSONSchema
          outputSpec output).lookup "200" = some r ∧
        ct ∈ (r.content.getD []).map Prod.fst := by
    intro hne
    have hin : (ct, enc) ∈ outputSpec.contents.filter
        (fun e => getUndefinedPossibility e.2 != Tri.yes) :=
      List.mem_filter.mpr ⟨hmem, by simpa [bne_iff_ne] using hne⟩
    have hlen : (outputSpec.contents.filter
        (fun e => getUndefinedPossibility e.2 != Tri.yes)).length > 0 :=
      List.length_pos.mpr (fun hz => by rw [hz] at hin; cases hin)
    rw [getResponseBody_lookup_200, if_pos hlen]
    refine ⟨_, rfl, ?_⟩
    simp only [Option.getD_some, getContentMap_keys]
    exact List.mem_map.mpr ⟨(ct, enc), hin, rfl⟩
  have h204some : ∀ hne : getUndefinedPossibility enc ≠ Tri.no,
      ((getResponseBody getUndefinedPossibility generateJSONSchema
        outputSpec output).lookup "204").isSome = true := by
    intro hne
    rw [getResponseBody_lookup_204, if_pos (List.any_eq_true.mpr
      ⟨(ct, enc), hmem, by simpa [bne_iff_ne] using hne⟩)]
    rfl
  refine ⟨?_, ?_, ?_⟩
  · intro hy
    refine ⟨h204some (by rw [hy]; intro hc; cases hc), ?_⟩
    intro r hr hct
    rw [getResponseBody_lookup_200] at hr
    by_cases h200 : (outputSpec.contents.filter
        (fun e => getUndefinedPossibility e.2 != Tri.yes)).length > 0
    · rw [if_pos h200] at hr
      obtain ⟨rfl⟩ := Option.some.injEq _ _ ▸ hr
      injection hr with hr2
      rw [← hr2] at hct
      simp only [Option.getD_some, getContentMap_keys] at hct
      obtain ⟨e, he, hee⟩ := List.mem_map.mp hct
      obtain ⟨hein, hene⟩ := List.mem_filter.mp he
      have : e.2 = enc := by
        apply nodup_key_unique outputSpec.contents hnd ct
        · rw [← hee]
          exact hein
        · exact hmem
      rw [this] at hene
      rw [hy] at hene
      simp at hene
    · rw [if_neg h200] at hr
      cases hr
  · intro hno
    refine ⟨h200mem (by rw [hno]; intro hc; cases hc), ?_⟩
    rw [getResponseBody_lookup_204]
    by_cases hany : outputSpec.contents.any
        (fun e => getUndefinedPossibility e.2 != Tri.no) = true
    · rw [if_pos hany]
      simp only [Option.isSome_some, true_iff]
      obtain ⟨e, he, hee⟩ := List.any_eq_true.mp hany
      exact ⟨e, he, by simpa [bne_iff_ne] using hee⟩
    · rw [if_neg hany]
      simp only [Option.isSome_none, Bool.false_eq_true, false_iff]
      intro ⟨e, he, hee⟩
      exact hany (List.any_eq_true.mpr ⟨e, he, by simpa [bne_iff_ne] using hee⟩)
  · intro hu
    exact ⟨h204some (by rw [hu]; intro hc; cases hc),
      h200mem (by rw [hu]; intro hc; cases hc)⟩

/-- Witness for the tri-state response split at a concrete spec with one
content type `"a"` whose oracle answer is the indeterminate value: both a
`204` and a `200` containing `"a"` exist. -/
theorem getResponseBody_tristate_witness :
    ((getResponseBody (fun t => t) (fun _ _ => (none : Option Unit))
      ⟨[("a", Tri.unknown)]⟩
      (⟨"d", fun _ => (none : Option Unit)⟩ : ResponseBodyMd Unit)).lookup
        "204").isSome = true
    ∧ ∃ r, (getResponseBody (fun t => t) (fun _ _ => (none : Option Unit))
        ⟨[("a", Tri.unknown)]⟩
        (⟨"d", fun _ => (none : Option Unit)⟩ : ResponseBodyMd Unit)).lookup
          "200" = some r
      ∧ "a" ∈ (r.content.getD []).map Prod.fst :=
  (getResponseBody_tristate (fun t => t) (fun _ _ => (none : Option Unit))
    ⟨[("a", Tri.unknown)]⟩ ⟨"d", fun _ => (none : Option Unit)⟩
    (by decide) "a" Tri.unknown (by decide)).2.2 rfl

/-! ### Claim C5: the 400 response -/

lemma lookup_eq_none_of_not_mem_keys {γ : Type} (m : List (String × γ))
    (k : String) (h : k ∉ m.map Prod.fst) : m.lookup k = none := by
  induction m with
  | nil => rfl
  | cons a rest ih =>
    obtain ⟨k', v⟩ := a
    simp only [List.map_cons, List.mem_cons, not_or] at h
    have hb : (k == k') = false := by
      simp only [beq_eq_false_iff_ne, ne_eq]
      exact h.1
    simp only [List.lookup, hb]
    exact ih h.2

lemma handleResponseHeaders_keys {α σ ε : Type} (stringEncoder : α → σ)
    (responseHeadersSpec : Option (List (String × OutFieldSpec α)))
    (responseHeadersObject : Option (String → ParamMd))
    (responseObjects : List (String × ResponseObject σ ε)) :
    (handleResponseHeaders stringEncoder responseHeadersSpec
        responseHeadersObject responseObjects).map Prod.fst
      = responseObjects.map Prod.fst := by
  unfold handleResponseHeaders
  split
  · simp [List.map_map]
  · rfl

lemma getResponseBody_key_mem {α σ ε : Type} (getUndefinedPossibility : α → Tri)
    (generateJSONSchema : String → α → Option σ)
    (outputSpec : ContentsSpec α) (output : ResponseBodyMd ε) (k : String)
    (h : k ∈ (getResponseBody getUndefinedPossibility generateJSONSchema
      outputSpec output).map Prod.fst) : k = "204" ∨ k = "200" := by
  simp only [getResponseBody] at h
  rcases List.mem_append.mp ((List.map_append _ _ _) ▸ h) with h1 | h1
  · left
    split at h1 <;> simpa using h1
  · right
    split at h1 <;> simpa using h1

lemma lookup400_step {σ ε : Type} (R : List (String × ResponseObject σ ε))
    (hR : R.lookup "400" = none) (c : Bool) (resp : ResponseObject σ ε) :
    (if c = true then keySet R "400" resp else R).lookup "400"
      = if c = true then some resp else none := by
  cases c
  · simpa using hR
  · simp [lookup_keySet_self]

/-- C5: for every operation built without a 400-customization callback, a
`400` response is present iff at least one of URL path parameters, query
parameters, or request headers is present, and its description joins the
labels of precisely the present sources — among "URL path parameters",
"query", "request headers" in that fixed order — with " or "; with none of
the three, no 400 response exists. -/
theorem getOperationObject_response400 {α σ ε β τ ω : Type}
    (getUndefinedPossibility : α → Tri)
    (generateDecoderJSONSchema generateEncoderJSONSchema :
      String → α → Option σ)
    (stringDecoder stringEncoder : α → σ)
    (getSecurityObjects : τ → Option (OperationSecurityInformation σ ε β))
    (spec : EndpointSpec α τ) (mdArg : EndpointMd σ ε ω)
    (securitySchemes : List (String × β)) (hasURLParameters : Bool)
    (hc : mdArg.customize400Response = none) :
    ((getOperationObject getUndefinedPossibility generateDecoderJSONSchema
        generateEncoderJSONSchema stringDecoder stringEncoder
        getSecurityObjects spec mdArg securitySchemes
        hasURLParameters).1.responses.lookup "400")
      = (if (decide (0 < (getRequestHeaders stringDecoder
              spec.requestHeaders mdArg.headers).length)
            || decide (0 < (getQuery stringDecoder spec.query
              mdArg.query).length)
            || hasURLParameters) = true then
          some (⟨"If " ++ String.intercalate " or "
            ((([("URL path parameters", hasURLParameters),
               ("query", decide (0 < (getQuery stringDecoder spec.query
                 mdArg.query).length)),
               ("request headers", decide (0 < (getRequestHeaders
                 stringDecoder spec.requestHeaders
                 mdArg.headers).length))]).filter
              (fun e => e.2)).map (fun e => e.1)) ++ " fail validation.",
            none, none⟩ : ResponseObject σ ε)
        else none) := by
  have h0 : (handleResponseHeaders stringEncoder spec.responseHeaders
      mdArg.responseHeaders (getResponseBody getUndefinedPossibility
        generateEncoderJSONSchema spec.responseBody
        mdArg.responseBody)).lookup "400" = none := by
    apply lookup_eq_none_of_not_mem_keys
    rw [handleResponseHeaders_keys]
    intro hmem
    rcases getResponseBody_key_mem _ _ _ _ _ hmem with h | h
    · exact absurd h (by decide)
    · exact absurd h (by decide)
  have hQeq : decide ((getRequestHeaders stringDecoder spec.requestHeaders
        mdArg.headers).length < (getRequestHeaders stringDecoder
        spec.requestHeaders mdArg.headers ++ getQuery stringDecoder
        spec.query mdArg.query).length)
      = decide (0 < (getQuery stringDecoder spec.query
          mdArg.query).length) := by
    rw [decide_eq_decide, List.length_append]
    omega
  simp only [getOperationObject, gt_iff_lt]
  simp only [hQeq, hc]
  by_cases hflag : (decide (0 < (getRequestHeaders stringDecoder
      spec.requestHeaders mdArg.headers).length)
      || decide (0 < (getQuery stringDecoder spec.query mdArg.query).length)
      || hasURLParameters) = true
  · simp only [hflag, if_true, eq_self_iff_true]
    rw [lookup_keySet_self]
  · simp only [Bool.not_eq_true] at hflag
    simp only [hflag, Bool.false_eq_true, if_false]
    cases hgs : getSecurityObjects spec.stateInfo with
    | none =>
      cases hrb : spec.requestBody with
      | none =>
        cases hmb : mdArg.requestBody with
        | none => dsimp only; split <;> exact h0
        | some b => dsimp only; split <;> exact h0
      | some rb =>
        cases hmb : mdArg.requestBody with
        | none => dsimp only; split <;> exact h0
        | some bo =>
          dsimp only
          rw [lookup_keySet_ne _ _ _ _ (by decide)]
          split <;> exact h0
    | some sec =>
      dsimp only
      by_cases hlen : 0 < sec.securitySchemes.length
      · rw [if_pos hlen]
        dsimp only
        rw [lookup_keySet_ne _ _ _ _ (by decide)]
        cases hrb : spec.requestBody with
        | none =>
          cases hmb : mdArg.requestBody with
          | none => dsimp only; split <;> exact h0
          | some b => dsimp only; split <;> exact h0
        | some rb =>
          cases hmb : mdArg.requestBody with
          | none => dsimp only; split <;> exact h0
          | some bo =>
            dsimp only
            rw [lookup_keySet_ne _ _ _ _ (by decide)]
            split <;> exact h0
      · rw [if_neg hlen]
        dsimp only
        cases hrb : spec.requestBody with
        | none =>
          cases hmb : mdArg.requestBody with
          | none => dsimp only; split <;> exact h0
          | some b => dsimp only; split <;> exact h0
        | some rb =>
          cases hmb : mdArg.requestBody with
          | none => dsimp only; split <;> exact h0
          | some bo =>
            dsimp only
            rw [lookup_keySet_ne _ _ _ _ (by decide)]
            split <;> exact h0

/-- Witness for the 400 response shape: an endpoint with one request header,
no query, no URL parameters, and no 400 customization gets a 400 response
whose description names only the request headers. -/
theorem getOperationObject_response400_witness :
    ((getOperationObject (fun _ => Tri.no)
        (fun _ _ => (none : Option Unit)) (fun _ _ => (none : Option Unit))
        (fun _ => ()) (fun _ => ())
        (fun _ => (none : Option (OperationSecurityInformation
          Unit Unit Unit)))
        (⟨none, none, some [("h", ⟨true, ()⟩)], ⟨[]⟩, none, ()⟩ :
          EndpointSpec Unit Unit)
        (⟨(), none, none, ⟨"d", fun _ => none⟩, some (fun _ => ⟨none, none⟩),
          none, none, none⟩ : EndpointMd Unit Unit Unit)
        [] false).1.responses.lookup "400")
      = some ⟨"If request headers fail validation.", none, none⟩ := by
  have h := getOperationObject_response400 (fun _ => Tri.no)
    (fun _ _ => (none : Option Unit)) (fun _ _ => (none : Option Unit))
    (fun _ => ()) (fun _ => ())
    (fun _ => (none : Option (OperationSecurityInformation Unit Unit Unit)))
    (⟨none, none, some [("h", ⟨true, ()⟩)], ⟨[]⟩, none, ()⟩ :
      EndpointSpec Unit Unit)
    (⟨(), none, none, ⟨"d", fun _ => none⟩, some (fun _ => ⟨none, none⟩),
      none, none, none⟩ : EndpointMd Unit Unit Unit)
    [] false rfl
  rw [h]
  rfl

/-! ### Claim C7: the empty security requirement on optional schemes -/

/-- C7: when the resolved security information has at least one usage group,
the operation's `security` array is the per-group requirement objects, with
the empty requirement object prepended as first element exactly when some
usage in some group is marked optional. -/
theorem getOperationObject_security_optional {α σ ε β τ ω : Type}
    (getUndefinedPossibility : α → Tri)
    (generateDecoderJSONSchema generateEncoderJSONSchema :
      String → α → Option σ)
    (stringDecoder stringEncoder : α → σ)
    (getSecurityObjects : τ → Option (OperationSecurityInformation σ ε β))
    (spec : EndpointSpec α τ) (mdArg : EndpointMd σ ε ω)
    (securitySchemes : List (String × β)) (hasURLParameters : Bool)
    (si : OperationSecurityInformation σ ε β)
    (hsec : getSecurityObjects spec.stateInfo = some si)
    (hne : 0 < si.securitySchemes.length) :
    ((getOperationObject getUndefinedPossibility generateDecoderJSONSchema
        generateEncoderJSONSchema stringDecoder stringEncoder
        getSecurityObjects spec mdArg securitySchemes
        hasURLParameters).1.security)
      = some (if si.securitySchemes.any (fun g => g.any (fun u =>
            u.isOptional)) then
          ([] : List (String × List String)) :: si.securitySchemes.map
            (fun g => g.foldl (fun sec u =>
              keySet sec u.schemeID u.requirementData) [])
        else si.securitySchemes.map (fun g => g.foldl (fun sec u =>
          keySet sec u.schemeID u.requirementData) [])) := by
  simp only [getOperationObject, gt_iff_lt]
  simp only [hsec]
  rw [if_pos hne]
  dsimp only
  split <;> rfl

/-- Witness for the optional-security prepend: one usage group with a single
optional usage of scheme "auth" yields `security` whose first element is the
empty requirement object. -/
theorem getOperationObject_security_optional_witness :
    ((getOperationObject (fun _ => Tri.no)
        (fun _ _ => (none : Option Unit)) (fun _ _ => (none : Option Unit))
        (fun _ => ()) (fun _ => ())
        (fun _ => some (⟨[[⟨"auth", (), ["r"], true⟩]],
          ⟨"unauth", none, none⟩⟩ :
          OperationSecurityInformation Unit Unit Unit))
        (⟨none, none, none, ⟨[]⟩, none, ()⟩ : EndpointSpec Unit Unit)
        (⟨(), none, none, ⟨"d", fun _ => none⟩, none, none, none, none⟩ :
          EndpointMd Unit Unit Unit)
        [] false).1.security)
      = some [[], [("auth", ["r"])]] := by
  have h := getOperationObject_security_optional (fun _ => Tri.no)
    (fun _ _ => (none : Option Unit)) (fun _ _ => (none : Option Unit))
    (fun _ => ()) (fun _ => ())
    (fun _ => some (⟨[[⟨"auth", (), ["r"], true⟩]],
      ⟨"unauth", none, none⟩⟩ : OperationSecurityInformation Unit Unit Unit))
    (⟨none, none, none, ⟨[]⟩, none, ()⟩ : EndpointSpec Unit Unit)
    (⟨(), none, none, ⟨"d", fun _ => none⟩, none, none, none, none⟩ :
      EndpointMd Unit Unit Unit)
    [] false ⟨[[⟨"auth", (), ["r"], true⟩]], ⟨"unauth", none, none⟩⟩
    rfl (by decide)
  rw [h]
  rfl

/-! ### Claim C10: absent security information -/

/-- C10: when the security-resolution callback returns no information for
the operation's state, or information with an empty usage-group array, the
built operation has no `security` key, its responses have no `401` entry,
and the security scheme record is returned unchanged. -/
theorem getOperationObject_no_security {α σ ε β τ ω : Type}
    (getUndefinedPossibility : α → Tri)
    (generateDecoderJSONSchema generateEncoderJSONSchema :
      String → α → Option σ)
    (stringDecoder stringEncoder : α → σ)
    (getSecurityObjects : τ → Option (OperationSecurityInformation σ ε β))
    (spec : EndpointSpec α τ) (mdArg : EndpointMd σ ε ω)
    (securitySchemes : List (String × β)) (hasURLParameters : Bool)
    (hsec : ∀ si, getSecurityObjects spec.stateInfo = some si →
      si.securitySchemes = []) :
    ((getOperationObject getUndefinedPossibility generateDecoderJSONSchema
        generateEncoderJSONSchema stringDecoder stringEncoder
        getSecurityObjects spec mdArg securitySchemes
        hasURLParameters).1.security = none)
    ∧ ((getOperationObject getUndefinedPossibility generateDecoderJSONSchema
        generateEncoderJSONSchema stringDecoder stringEncoder
        getSecurityObjects spec mdArg securitySchemes
        hasURLParameters).1.responses.lookup "401" = none)
    ∧ ((getOperationObject getUndefinedPossibility generateDecoderJSONSchema
        generateEncoderJSONSchema stringDecoder stringEncoder
        getSecurityObjects spec mdArg securitySchemes
        hasURLParameters).2 = securitySchemes) := by
  have h0 : (handleResponseHeaders stringEncoder spec.responseHeaders
      mdArg.responseHeaders (getResponseBody getUndefinedPossibility
        generateEncoderJSONSchema spec.responseBody
        mdArg.responseBody)).lookup "401" = none := by
    apply lookup_eq_none_of_not_mem_keys
    rw [handleResponseHeaders_keys]
    intro hmem
    rcases getResponseBody_key_mem _ _ _ _ _ hmem with h | h
    · exact absurd h (by decide)
    · exact absurd h (by decide)
  simp only [getOperationObject, gt_iff_lt]
  cases hgs : getSecurityObjects spec.stateInfo with
  | none =>
    dsimp only
    refine ⟨?_, ?_, rfl⟩
    · split
      · cases spec.requestBody <;> cases mdArg.requestBody <;> dsimp only <;>
          split <;> rfl
      · cases spec.requestBody <;> cases mdArg.requestBody <;> dsimp only <;>
          split <;> rfl
    · split
      · dsimp only
        rw [lookup_keySet_ne _ _ _ _ (by decide)]
        cases spec.requestBody <;> cases mdArg.requestBody <;> dsimp only <;>
          first
          | (rw [lookup_keySet_ne _ _ _ _ (by decide)]; split <;> exact h0)
          | (split <;> exact h0)
      · cases spec.requestBody <;> cases mdArg.requestBody <;> dsimp only <;>
          first
          | (rw [lookup_keySet_ne _ _ _ _ (by decide)]; split <;> exact h0)
          | (split <;> exact h0)
  | some si =>
    have hempty := hsec si hgs
    dsimp only
    rw [if_neg (show ¬ 0 < si.securitySchemes.length by simp [hempty])]
    dsimp only
    refine ⟨?_, ?_, rfl⟩
    · split
      · cases spec.requestBody <;> cases mdArg.requestBody <;> dsimp only <;>
          split <;> rfl
      · cases spec.requestBody <;> cases mdArg.requestBody <;> dsimp only <;>
          split <;> rfl
    · split
      · dsimp only
        rw [lookup_keySet_ne _ _ _ _ (by decide)]
        cases spec.requestBody <;> cases mdArg.requestBody <;> dsimp only <;>
          first
          | (rw [lookup_keySet_ne _ _ _ _ (by decide)]; split <;> exact h0)
          | (split <;> exact h0)
      · cases spec.requestBody <;> cases mdArg.requestBody <;> dsimp only <;>
          first
          | (rw [lookup_keySet_ne _ _ _ _ (by decide)]; split <;> exact h0)
          | (split <;> exact h0)

/-- Witness: with a callback that returns no security information, the built
operation has no security key, no 401 response, and leaves the scheme
record unchanged. -/
theorem getOperationObject_no_security_witness :
    ((getOperationObject (fun _ => Tri.no)
        (fun _ _ => (none : Option Unit)) (fun _ _ => (none : Option Unit))
        (fun _ => ()) (fun _ => ())
        (fun _ => (none : Option (OperationSecurityInformation
          Unit Unit Unit)))
        (⟨none, none, none, ⟨[]⟩, none, ()⟩ : EndpointSpec Unit Unit)
        (⟨(), none, none, ⟨"d", fun _ => none⟩, none, none, none, none⟩ :
          EndpointMd Unit Unit Unit)
        [("pre", ())] false).1.security = none)
    ∧ ((getOperationObject (fun _ => Tri.no)
        (fun _ _ => (none : Option Unit)) (fun _ _ => (none : Option Unit))
        (fun _ => ()) (fun _ => ())
        (fun _ => (none : Option (OperationSecurityInformation
          Unit Unit Unit)))
        (⟨none, none, none, ⟨[]⟩, none, ()⟩ : EndpointSpec Unit Unit)
        (⟨(), none, none, ⟨"d", fun _ => none⟩, none, none, none, none⟩ :
          EndpointMd Unit Unit Unit)
        [("pre", ())] false).1.responses.lookup "401" = none)
    ∧ ((getOperationObject (fun _ => Tri.no)
        (fun _ _ => (none : Option Unit)) (fun _ _ => (none : Option Unit))
        (fun _ => ()) (fun _ => ())
        (fun _ => (none : Option (OperationSecurityInformation
          Unit Unit Unit)))
        (⟨none, none, none, ⟨[]⟩, none, ()⟩ : EndpointSpec Unit Unit)
        (⟨(), none, none, ⟨"d", fun _ => none⟩, none, none, none, none⟩ :
          EndpointMd Unit Unit Unit)
        [("pre", ())] false).2 = [("pre", ())]) :=
  getOperationObject_no_security (fun _ => Tri.no)
    (fun _ _ => (none : Option Unit)) (fun _ _ => (none : Option Unit))
    (fun _ => ()) (fun _ => ())
    (fun _ => (none : Option (OperationSecurityInformation Unit Unit Unit)))
    (⟨none, none, none, ⟨[]⟩, none, ()⟩ : EndpointSpec Unit Unit)
    (⟨(), none, none, ⟨"d", fun _ => none⟩, none, none, none, none⟩ :
      EndpointMd Unit Unit Unit)
    [("pre", ())] false (fun si h => Option.noConfusion h)

/-! ### Claim C4: finalization keeps every path entry -/

lemma lookup_foldl_keySet_absent {δ γ : Type} (key : δ → String)
    (val : δ → γ) (l : List δ) (acc : List (String × γ)) (k : String)
    (hk : k ∉ l.map key) :
    (l.foldl (fun m x => keySet m (key x) (val x)) acc).lookup k
      = acc.lookup k := by
  induction l generalizing acc with
  | nil => rfl
  | cons a rest ih =>
    simp only [List.map_cons, List.mem_cons, not_or] at hk
    rw [List.foldl_cons, ih (keySet acc (key a) (val a)) hk.2,
      lookup_keySet_ne _ _ _ _ hk.1]

lemma lookup_foldl_keySet {δ γ : Type} (key : δ → String) (val : δ → γ)
    (l : List δ) (acc : List (String × γ)) (hnd : (l.map key).Nodup)
    (e : δ) (he : e ∈ l) :
    (l.foldl (fun m x => keySet m (key x) (val x)) acc).lookup (key e)
      = some (val e) := by
  induction l generalizing acc with
  | nil => cases he
  | cons a rest ih =>
    rw [List.map_cons, List.nodup_cons] at hnd
    rcases List.mem_cons.mp he with rfl | he'
    · rw [List.foldl_cons,
        lookup_foldl_keySet_absent key val rest _ (key e) hnd.1,
        lookup_keySet_self]
    · rw [List.foldl_cons]
      exact ih (keySet acc (key a) (val a)) hnd.2 he'

/-- Counterexample to the skipping clause: a path entry built from an empty
endpoints record registers no HTTP method, yet finalization still emits its
rendered pattern as a key of the output `paths` map. -/
theorem createFinalMetadata_methodless_entry_kept :
    ((afterDefiningURLEndpoints (fun _ => Tri.no)
        (fun _ _ => (none : Option Unit)) (fun _ _ => (none : Option Unit))
        (fun _ => ()) (fun _ => ())
        (fun _ => (none : Option (OperationSecurityInformation
          Unit Unit Unit)))
        (⟨[Sum.inl "/x"], (), none, fun _ => ⟨(), ""⟩⟩ : URLArgs Unit Unit)
        ([] : List (String × EndpointInfo Unit Unit Unit Unit
          Unit))).pathItem.methods = [])
    ∧ ((createFinalMetadata ()
        [afterDefiningURLEndpoints (fun _ => Tri.no)
          (fun _ _ => (none : Option Unit))
          (fun _ _ => (none : Option Unit))
          (fun _ => ()) (fun _ => ())
          (fun _ => (none : Option (OperationSecurityInformation
            Unit Unit Unit)))
          (⟨[Sum.inl "/x"], (), none, fun _ => ⟨(), ""⟩⟩ :
            URLArgs Unit Unit)
          ([] : List (String × EndpointInfo Unit Unit Unit Unit
            Unit))]).paths.lookup "/x"
      = some ⟨(), [], none⟩) :=
  ⟨rfl, rfl⟩

/-- C4 (amended): document finalization merges every collected path entry
into the output `paths` map, with no skipping of entries that registered no
HTTP method: for entries with pairwise distinct rendered patterns, the
output maps each entry's pattern to its PathItem. -/
theorem createFinalMetadata_includes_all_entries {σ ε ω π β ι : Type}
    (info : ι) (paths : List (PathEntry σ ε ω π β))
    (hnd : (paths.map PathEntry.pattern).Nodup)
    (e : PathEntry σ ε ω π β) (he : e ∈ paths) :
    (createFinalMetadata info paths).paths.lookup e.pattern
      = some e.pathItem := by
  simp only [createFinalMetadata]
  exact lookup_foldl_keySet PathEntry.pattern PathEntry.pathItem paths []
    hnd e he

/-- Witness: a one-entry finalization maps the entry's pattern to its
(method-less) PathItem. -/
theorem createFinalMetadata_includes_all_entries_witness :
    (createFinalMetadata ()
      [(⟨"/x", ⟨(), [], none⟩, []⟩ :
        PathEntry Unit Unit Unit Unit Unit)]).paths.lookup "/x"
      = some ⟨(), [], none⟩ :=
  createFinalMetadata_includes_all_entries ()
    [⟨"/x", ⟨(), [], none⟩, []⟩] (by simp)
    ⟨"/x", ⟨(), [], none⟩, []⟩ (List.Mem.head _)

/-! ### Claim C3: the authenticated-operation stripper of `utils.ts`

The OpenAPI documents handled by the utilities are modelled value-wise;
JavaScript reference identity is tracked explicitly: `removeSecuritySchemes`
returns `true` in its first component exactly when it returns its argument
object itself (not a rebuilt one), and `removeAuthenticatedOperations`
returns `some (true, doc)` exactly when the source returns the original
document reference.  The `modified` flag of the iterator is the source's
`pathObjectOrExclude !== pathObject` comparison: `preserveOperations`
always builds a fresh shallow clone, so the flag is `true` whenever the
preserve branch runs. -/

/-- An `openapi.OperationObject`: all fields other than `security` are kept
opaque in `payload`; a security requirement object is its key/value list. -/
structure UOperation : Type where
  payload : Nat
  security : Option (List (List (String × List String)))
deriving DecidableEq

/-- An `openapi.PathItemObject`: the non-method fields are kept opaque in
`static`, the method-keyed operations live in `ops`. -/
structure UPathItem : Type where
  static : Nat
  ops : List (String × UOperation)
deriving DecidableEq

/-- An `openapi.Document`: `info`/`openapi` opaque, `paths` with possibly
missing path objects, `components` as a key/value record with opaque
values (only the `securitySchemes` key matters to the utilities). -/
structure UDoc : Type where
  info : Nat
  paths : List (String × Option UPathItem)
  components : Option (List (String × Nat))
deriving DecidableEq

/-- `Object.values(openapi.HttpMethods)`, in enum declaration order. -/
def httpMethods : List String :=
  ["get", "put", "post", "delete", "options", "head", "patch", "trace"]

/-- The filter callback of `removeAuthenticatedOperations`: defined
`security` with at least one element, all of whose requirement objects have
at least one key. -/
def operationIsAuthenticated (op : UOperation) : Bool :=
  match op.security with
  | some security =>
    decide (security.length > 0) && security.all (fun sec =>
      decide (sec.length > 0))
  | none => false

/-- The transform callback `({security: _, ...operation}) => operation`. -/
def stripSecurity (op : UOperation) : UOperation :=
  { payload := op.payload, security := none }

/-- JavaScript `delete m[key]`. -/
def deleteKey {γ : Type} (m : List (String × γ)) (key : String) :
    List (String × γ) :=
  m.filter (fun e => e.1 != key)

/-- `preserveOperations` of `utils.ts`: shallow-clone the path object, then
per method found in the path either overwrite with the preserved operation
or delete the key. -/
def preserveOperations (pathObject : UPathItem)
    (methodsInPath : List (String × UOperation))
    (methodsToPreserve : List (String × UOperation)) : UPathItem :=
  { pathObject with
    ops := methodsInPath.foldl (fun ops mi =>
      match methodsToPreserve.lookup mi.1 with
      | some operationToPreserve => keySet ops mi.1 operationToPreserve
      | none => deleteKey ops mi.1) pathObject.ops }

/-- `removeOperationsMatchingFilter` of `utils.ts`: per path, collect the
operations under HTTP method keys, keep those not matching `filter`
(transformed); a path with surviving operations is yielded as a fresh
clone (`modified = true`), a path whose operations all matched is dropped,
and a method-less or missing path object is yielded untouched. -/
def removeOperationsMatchingFilter
    (paths : List (String × Option UPathItem))
    (filter : UOperation → Bool)
    (transform : UOperation → UOperation) :
    List (String × (Option UPathItem × Bool)) :=
  paths.filterMap (fun e =>
    match e.2 with
    | none => some (e.1, (none, false))
    | some pathObject =>
      let methodsInPath := httpMethods.filterMap (fun method =>
        (pathObject.ops.lookup method).map (fun operation =>
          (method, operation)))
      let methodsToPreserve := (methodsInPath.filter (fun mi =>
        !filter mi.2)).map (fun mi => (mi.1, transform mi.2))
      if methodsToPreserve.length > 0 then
        some (e.1, (some (preserveOperations pathObject methodsInPath
          methodsToPreserve), true))
      else if methodsInPath.length > 0 then
        none
      else
        some (e.1, (some pathObject, false)))

/-- `removeSecuritySchemes` of `utils.ts`; the Bool is `true` when the
original document object itself is returned. -/
def removeSecuritySchemes (doc : UDoc) : Bool × UDoc :=
  match doc.components with
  | some components =>
    if components.any (fun e => e.1 == "securitySchemes") then
      let otherComponents := components.filter (fun e =>
        e.1 != "securitySchemes")
      if otherComponents.length > 0 then
        (false, { doc with components := some otherComponents })
      else (false, { doc with components := none })
    else (true, doc)
  | none => (true, doc)

/-- `removeAuthenticatedOperations` of `utils.ts`; `none` models the
`undefined` return, and the Bool is `true` when the original document
object itself is returned (in the rebuild branch the document handed to
`removeSecuritySchemes` is already a fresh spread, so the result is never
the original reference). -/
def removeAuthenticatedOperations (metadata : UDoc) :
    Option (Bool × UDoc) :=
  let originalPathsLength := metadata.paths.length
  let unauthenticatedPaths := removeOperationsMatchingFilter metadata.paths
    operationIsAuthenticated stripSecurity
  if (decide (originalPathsLength > unauthenticatedPaths.length)
      || unauthenticatedPaths.any (fun e => e.2.2)) = true then
    if unauthenticatedPaths.length > 0 then
      some (false, (removeSecuritySchemes { metadata with
        paths := unauthenticatedPaths.map (fun e => (e.1, e.2.1)) }).2)
    else none
  else some (removeSecuritySchemes metadata)

/-- Counterexample to the identity claim: a document whose single operation
carries an empty `security` array is already unauthenticated, yet the
stripper returns a freshly built document (first component `false`), with
the operation's `security` key removed — not the original reference. -/
theorem removeAuthenticatedOperations_fresh_on_unauthenticated :
    operationIsAuthenticated ⟨0, some []⟩ = false
    ∧ removeAuthenticatedOperations
        ⟨0, [("p", some ⟨0, [("get", ⟨0, some []⟩)]⟩)], none⟩
      = some (false, ⟨0, [("p", some ⟨0, [("get", ⟨0, none⟩)]⟩)], none⟩) :=
  ⟨rfl, rfl⟩

lemma removeOperationsMatchingFilter_no_methods
    (l : List (String × Option UPathItem))
    (f : UOperation → Bool) (t : UOperation → UOperation)
    (h : ∀ p pi, (p, some pi) ∈ l → ∀ m ∈ httpMethods,
      pi.ops.lookup m = none) :
    removeOperationsMatchingFilter l f t
      = l.map (fun e => (e.1, (e.2, false))) := by
  simp only [removeOperationsMatchingFilter]
  induction l with
  | nil => rfl
  | cons a rest ih =>
    obtain ⟨p, po⟩ := a
    rw [List.filterMap_cons, List.map_cons]
    have hrest := ih (fun q pi hq m hm =>
      h q pi (List.mem_cons_of_mem _ hq) m hm)
    cases po with
    | none =>
      dsimp only
      rw [hrest]
    | some pi =>
      have hmeths : httpMethods.filterMap (fun method =>
          (pi.ops.lookup method).map (fun operation =>
            (method, operation))) = [] := by
        rw [List.filterMap_eq_nil]
        intro m hm
        rw [h p pi (List.mem_cons_self _ _) m hm]
        rfl
      dsimp only
      rw [hmeths]
      rw [if_neg (by simp), if_neg (by simp)]
      dsimp only
      rw [hrest]

/-- C3 (amended): the stripper returns the original document object (result
`some (true, doc)`) exactly in the narrow case where no path object carries
any HTTP-method operation and `components` has no `securitySchemes` key;
whenever any operation survives, the rebuilt path objects are fresh, so the
result is a new document even when the input was already unauthenticated. -/
theorem removeAuthenticatedOperations_identity (doc : UDoc)
    (hops : doc.paths.all (fun e =>
      match e.2 with
      | some pi => httpMethods.all (fun m => (pi.ops.lookup m).isNone)
      | none => true) = true)
    (hcomp : (match doc.components with
      | some components =>
        components.all (fun e => e.1 != "securitySchemes")
      | none => true) = true) :
    removeAuthenticatedOperations doc = some (true, doc) := by
  have hops' : ∀ p pi, (p, some pi) ∈ doc.paths → ∀ m ∈ httpMethods,
      pi.ops.lookup m = none := by
    intro p pi hmem m hm
    have h1 := List.all_eq_true.mp hops (p, some pi) hmem
    dsimp only at h1
    have h2 := List.all_eq_true.mp h1 m hm
    exact Option.isNone_iff_eq_none.mp h2
  have hlist := removeOperationsMatchingFilter_no_methods doc.paths
    operationIsAuthenticated stripSecurity hops'
  simp only [removeAuthenticatedOperations]
  rw [hlist]
  rw [if_neg (by simp [List.any_map, Function.comp])]
  cases hc : doc.components with
  | none => simp [removeSecuritySchemes, hc]
  | some components =>
    rw [hc] at hcomp
    dsimp only at hcomp
    have hany : components.any (fun e =>
        e.1 == "securitySchemes") = false := by
      simp only [List.any_eq_false]
      intro e he
      simpa using List.all_eq_true.mp hcomp e he
    simp [removeSecuritySchemes, hc, hany]

/-- Witness: a document with a method-less path object, a missing path
object, and components without a `securitySchemes` key comes back as the
original object. -/
theorem removeAuthenticatedOperations_identity_witness :
    removeAuthenticatedOperations
      ⟨7, [("path", some ⟨3, []⟩), ("empty", none)],
        some [("requestBodies", 1)]⟩
      = some (true, ⟨7, [("path", some ⟨3, []⟩), ("empty", none)],
        some [("requestBodies", 1)]⟩) :=
  removeAuthenticatedOperations_identity _ (by decide) (by decide)
